import Mathlib

/-!
Verification of the prescriptionreader repository (src/app.py and
src/symptom_predictor.py) against its specification.

Modelling conventions:
- Python strings are modelled as `List Char` (ASCII is what the repository
  manipulates; `Char.toLower`, `Char.isAlpha` etc. model the ASCII behaviour
  of the corresponding Python methods).
- Python floats are modelled as exact rationals (`ℚ`).  `round(x, 3)` is
  modelled as `round3` below; Python rounds floats half-to-even while the
  model rounds half-up, but no claim in this development exercises an exact
  tie, and all "± rounding" tolerances are insensitive to the tie rule.
- `json.loads` (an external library collaborator) is modelled by `jsonLoads`,
  a recursive-descent parser for the JSON value grammar (strict mode: double
  quoted strings, no trailing commas, control characters rejected, numbers
  per the JSON grammar).  It returns `none` where `json.loads` raises.
- Streamlit session state is modelled as explicit record-passing.
-/

namespace PrescriptionReader

/-- Python strings are modelled as lists of characters. -/
abbrev Str := List Char

/-- The six ASCII whitespace characters stripped by Python's `str.strip`. -/
def isPyWS (c : Char) : Bool :=
  c = ' ' || c = '\t' || c = '\n' || c = '\r' || c = '\x0b' || c = '\x0c'

/-- Python `str.lstrip()` (ASCII whitespace). -/
def lstrip (l : Str) : Str := l.dropWhile isPyWS

/-- Python `str.rstrip()` (ASCII whitespace). -/
def rstrip (l : Str) : Str := (lstrip l.reverse).reverse

/-- Python `str.strip()` (ASCII whitespace). -/
def strip (l : Str) : Str := rstrip (lstrip l)

/-- Python `str.replace(pat, rep)`: non-overlapping left-to-right
replacement.  (Python inserts `rep` between every character when `pat` is
empty; the repository only ever replaces non-empty patterns, and for an
empty pattern this model leaves the string unchanged.) -/
def replaceAll (pat rep : Str) : Str → Str
  | [] => []
  | c :: t =>
    if pat.isPrefixOf (c :: t) ∧ pat ≠ [] then
      rep ++ replaceAll pat rep (List.drop (pat.length - 1) t)
    else
      c :: replaceAll pat rep t
termination_by l => l.length
decreasing_by
  · simp only [List.length_drop, List.length_cons]
    omega
  · simp only [List.length_cons]
    omega

/-- Python's `needle in hay` (contiguous substring test). -/
def hasSub (needle : Str) : Str → Bool
  | [] => needle.isEmpty
  | c :: t => needle.isPrefixOf (c :: t) || hasSub needle t

/-- Python's `hay.count(needle)` for a non-empty needle: the number of
non-overlapping occurrences, scanning left to right. -/
def countSub (needle : Str) : Str → Nat
  | [] => 0
  | c :: t =>
    if needle.isPrefixOf (c :: t) ∧ needle ≠ [] then
      countSub needle (List.drop (needle.length - 1) t) + 1
    else
      countSub needle t
termination_by l => l.length
decreasing_by
  · simp only [List.length_drop, List.length_cons]
    omega
  · simp only [List.length_cons]
    omega

/-- Python `str.lower()` on ASCII text. -/
def lowerStr (l : Str) : Str := l.map Char.toLower

/-- One character of Python `str.title()`: an alphabetic character is
upper-cased when the previous character was not alphabetic and lower-cased
otherwise. -/
def titleCh (prevAlpha : Bool) (c : Char) : Char :=
  if c.isAlpha then (if prevAlpha then c.toLower else c.toUpper) else c

/-- Worker for `titleStr`, tracking whether the previous character was
alphabetic. -/
def titleAux : Bool → Str → Str
  | _, [] => []
  | prevAlpha, c :: t => titleCh prevAlpha c :: titleAux c.isAlpha t

/-- Python `str.title()` on ASCII text. -/
def titleStr (l : Str) : Str := titleAux false l

/-- Python `round(x, 3)` modelled over exact rationals. -/
def round3 (q : ℚ) : ℚ := (round (q * 1000) : ℚ) / 1000

/-! ## Model of `json.loads` -/

/-- JSON values as produced by `json.loads` (dicts keep insertion order;
numbers are modelled as exact rationals). -/
inductive JVal where
  | jnull : JVal
  | jbool : Bool → JVal
  | jnum : ℚ → JVal
  | jstr : Str → JVal
  | jarr : List JVal → JVal
  | jobj : List (Str × JVal) → JVal

/-- Python dict assignment `d[k] = v` on an insertion-ordered association
list: an existing key keeps its position, a new key is appended. -/
def setKeyJ (k : Str) (v : JVal) : List (Str × JVal) → List (Str × JVal)
  | [] => [(k, v)]
  | kv :: rest => if kv.1 = k then (k, v) :: rest else kv :: setKeyJ k v rest

/-- JSON insignificant whitespace. -/
def isJsonWS (c : Char) : Bool := c = ' ' || c = '\t' || c = '\n' || c = '\r'

/-- Skip JSON whitespace. -/
def skipWS (l : Str) : Str := l.dropWhile isJsonWS

/-- JSON string escape characters (other than `\u`). -/
def escChar (e : Char) : Option Char :=
  if e = '"' then some '"'
  else if e = '\\' then some '\\'
  else if e = '/' then some '/'
  else if e = 'b' then some '\x08'
  else if e = 'f' then some '\x0c'
  else if e = 'n' then some '\n'
  else if e = 'r' then some '\r'
  else if e = 't' then some '\t'
  else none

/-- Value of a hexadecimal digit. -/
def hexVal (c : Char) : Option Nat :=
  if c.isDigit then some (c.toNat - 48)
  else if 'a' ≤ c ∧ c ≤ 'f' then some (c.toNat - 87)
  else if 'A' ≤ c ∧ c ≤ 'F' then some (c.toNat - 55)
  else none

/-- Parse the body of a JSON string after the opening quote, returning the
decoded characters and the rest of the input.  Control characters are
rejected (strict mode); `\u` escapes outside the surrogate range are
decoded, surrogate pairs are not modelled (no claim exercises them). -/
def parseStringBody : Str → Option (Str × Str)
  | [] => none
  | c :: rest =>
    if c = '"' then some ([], rest)
    else if c = '\\' then
      match rest with
      | 'u' :: h1 :: h2 :: h3 :: h4 :: rest3 =>
        (match hexVal h1, hexVal h2, hexVal h3, hexVal h4 with
         | some a, some b, some c2, some d =>
           let code := ((a * 16 + b) * 16 + c2) * 16 + d
           if h : code < 55296 then
             (parseStringBody rest3).map
               (fun sr => (Char.ofNatAux code (Or.inl h) :: sr.1, sr.2))
           else if h2 : 57343 < code ∧ code < 1114112 then
             (parseStringBody rest3).map
               (fun sr => (Char.ofNatAux code (Or.inr h2) :: sr.1, sr.2))
           else none
         | _, _, _, _ => none)
      | e :: rest2 =>
        (match escChar e with
         | some ch => (parseStringBody rest2).map (fun sr => (ch :: sr.1, sr.2))
         | none => none)
      | [] => none
    else if c.toNat < 32 then none
    else (parseStringBody rest).map (fun sr => (c :: sr.1, sr.2))

/-- Digits to a natural number. -/
def digitsToNat (ds : Str) : Nat := ds.foldl (fun a c => a * 10 + (c.toNat - 48)) 0

/-- Parse a JSON number at the head of the input, per the JSON grammar
`-?(0|[1-9][0-9]*)(\.[0-9]+)?([eE][+-]?[0-9]+)?` (maximal match, like
Python's scanner; an unmatched trailing `.` or `e` is left in the rest). -/
def parseNumber (l : Str) : Option (ℚ × Str) :=
  let negl : Bool × Str := match l with
    | '-' :: t => (true, t)
    | _ => (false, l)
  let l1 := negl.2
  let ds : Str := match l1 with
    | '0' :: _ => ['0']
    | _ => l1.takeWhile Char.isDigit
  if ds = [] then none
  else
    let r1 := l1.drop ds.length
    let fr : Str × Str := match r1 with
      | '.' :: t =>
        (if t.takeWhile Char.isDigit = [] then (([] : Str), r1)
         else (t.takeWhile Char.isDigit, t.dropWhile Char.isDigit))
      | _ => ([], r1)
    let fds := fr.1
    let r2 := fr.2
    let er : Int × Str := match r2 with
      | 'e' :: '+' :: t =>
        (if t.takeWhile Char.isDigit = [] then ((0 : Int), r2)
         else ((digitsToNat (t.takeWhile Char.isDigit) : Int), t.dropWhile Char.isDigit))
      | 'E' :: '+' :: t =>
        (if t.takeWhile Char.isDigit = [] then ((0 : Int), r2)
         else ((digitsToNat (t.takeWhile Char.isDigit) : Int), t.dropWhile Char.isDigit))
      | 'e' :: '-' :: t =>
        (if t.takeWhile Char.isDigit = [] then ((0 : Int), r2)
         else (-(digitsToNat (t.takeWhile Char.isDigit) : Int), t.dropWhile Char.isDigit))
      | 'E' :: '-' :: t =>
        (if t.takeWhile Char.isDigit = [] then ((0 : Int), r2)
         else (-(digitsToNat (t.takeWhile Char.isDigit) : Int), t.dropWhile Char.isDigit))
      | 'e' :: t =>
        (if t.takeWhile Char.isDigit = [] then ((0 : Int), r2)
         else ((digitsToNat (t.takeWhile Char.isDigit) : Int), t.dropWhile Char.isDigit))
      | 'E' :: t =>
        (if t.takeWhile Char.isDigit = [] then ((0 : Int), r2)
         else ((digitsToNat (t.takeWhile Char.isDigit) : Int), t.dropWhile Char.isDigit))
      | _ => (0, r2)
    let mant : ℚ := (digitsToNat (ds ++ fds) : ℚ) / (10 : ℚ) ^ fds.length
    let value : ℚ := mant * (10 : ℚ) ^ er.1
    some (if negl.1 then -value else value, er.2)

mutual

/-- Parse one JSON value (fuel-indexed recursive descent; the fuel passed by
`jsonLoads` is always sufficient for the inputs considered). -/
def parseValue : Nat → Str → Option (JVal × Str)
  | 0, _ => none
  | fuel + 1, l =>
    match skipWS l with
    | [] => none
    | c :: rest =>
      if c = '\x7b' then parseObjRest fuel rest
      else if c = '[' then parseArrRest fuel rest
      else if c = '"' then (parseStringBody rest).map (fun sr => (JVal.jstr sr.1, sr.2))
      else if c = 't' then
        (match rest with | 'r' :: 'u' :: 'e' :: r => some (JVal.jbool true, r) | _ => none)
      else if c = 'f' then
        (match rest with | 'a' :: 'l' :: 's' :: 'e' :: r => some (JVal.jbool false, r) | _ => none)
      else if c = 'n' then
        (match rest with | 'u' :: 'l' :: 'l' :: r => some (JVal.jnull, r) | _ => none)
      else (parseNumber (c :: rest)).map (fun qr => (JVal.jnum qr.1, qr.2))

/-- Parse the remainder of a JSON object, just after the opening brace. -/
def parseObjRest : Nat → Str → Option (JVal × Str)
  | 0, _ => none
  | fuel + 1, l =>
    match skipWS l with
    | '\x7d' :: r => some (JVal.jobj [], r)
    | _ => parseObjLoop fuel l []

/-- Parse the members of a JSON object (key, colon, value, then a comma or
the closing brace), accumulating a dict. -/
def parseObjLoop : Nat → Str → List (Str × JVal) → Option (JVal × Str)
  | 0, _, _ => none
  | fuel + 1, l, acc =>
    match skipWS l with
    | '"' :: r =>
      (match parseStringBody r with
       | some (k, r2) =>
         (match skipWS r2 with
          | ':' :: r3 =>
            (match parseValue fuel r3 with
             | some (v, r4) =>
               (match skipWS r4 with
                | ',' :: r5 => parseObjLoop fuel r5 (setKeyJ k v acc)
                | '\x7d' :: r5 => some (JVal.jobj (setKeyJ k v acc), r5)
                | _ => none)
             | none => none)
          | _ => none)
       | none => none)
    | _ => none

/-- Parse the remainder of a JSON array, just after the opening bracket. -/
def parseArrRest : Nat → Str → Option (JVal × Str)
  | 0, _ => none
  | fuel + 1, l =>
    match skipWS l with
    | ']' :: r => some (JVal.jarr [], r)
    | _ => parseArrLoop fuel l []

/-- Parse the elements of a JSON array. -/
def parseArrLoop : Nat → Str → List JVal → Option (JVal × Str)
  | 0, _, _ => none
  | fuel + 1, l, acc =>
    match parseValue fuel l with
    | some (v, r) =>
      (match skipWS r with
       | ',' :: r2 => parseArrLoop fuel r2 (acc ++ [v])
       | ']' :: r2 => some (JVal.jarr (acc ++ [v]), r2)
       | _ => none)
    | none => none

end

/-- Model of Python's `json.loads`: parse one JSON value and require only
whitespace after it; `none` models a raised `JSONDecodeError`. -/
def jsonLoads (l : Str) : Option JVal :=
  match parseValue (4 * l.length + 16) l with
  | some (v, r) => if skipWS r = [] then some v else none
  | none => none

/-! ## Resilient JSON recovery (`parse_gemini_json`)

The two source files share, character for character, the defencing /
slicing / trailing-comma-cleaning steps of `parse_gemini_json`
(src/symptom_predictor.py lines 37-48, src/app.py lines 37-59), so those
steps are embedded once; the two functions differ only in the final parse
step (the predictor retries with single quotes replaced by double quotes,
the extractor does not). -/

/-- Slice from the first `{` to the last `}` inclusive, as
`raw[raw.index("{") : raw.rindex("}") + 1]` does; `none` models the caught
`ValueError` when either brace is absent.  (Keeping the text from the first
`{` and then cutting after the last `}` of what remains agrees with the
index/rindex slice also when the last `}` precedes the first `{`: both
produce the empty string.) -/
def sliceBraces (l : Str) : Option Str :=
  if '\x7b' ∈ l ∧ '\x7d' ∈ l then
    some (((l.dropWhile (fun c => c ≠ '\x7b')).reverse.dropWhile (fun c => c ≠ '\x7d')).reverse)
  else none

/-- Worker for `cleanCommas`, structurally recursive on a fuel that bounds
the input length (one unit of fuel is spent per character or per matched
comma group, so fuel equal to the length always suffices; the fuel-exhausted
case is unreachable under that call pattern). -/
def cleanCommasAux : Nat → Str → Str
  | 0, l => l
  | _, [] => []
  | fuel + 1, c :: t =>
    if c = ',' then
      match t.dropWhile isPyWS with
      | b :: rest =>
        if b = '\x7d' ∨ b = ']' then b :: cleanCommasAux fuel rest
        else c :: cleanCommasAux fuel t
      | [] => c :: cleanCommasAux fuel t
    else c :: cleanCommasAux fuel t

/-- The regex pass `re.sub(r",\s*([}\]])", r"\1", json_str)`: remove a comma
(and the whitespace after it) immediately preceding a closing brace or
bracket, non-overlapping left to right. -/
def cleanCommas (l : Str) : Str := cleanCommasAux l.length l

/-- The shared text-recovery pipeline of both `parse_gemini_json`
implementations: empty check, `strip`, removal of the fence markers, second
`strip`, brace slicing, trailing-comma cleaning.  Returns the string handed
to `json.loads`, or `none` when the input is empty or a brace is absent. -/
def extractJsonStr (raw : Str) : Option Str :=
  if raw = [] then none
  else
    let r2 := strip (replaceAll (("```").toList) []
      (replaceAll (("```json").toList) [] (strip raw)))
    (sliceBraces r2).map cleanCommas

namespace SymptomPredictor

/-- src/symptom_predictor.py `parse_gemini_json` (lines 37-56): the shared
recovery pipeline, a strict parse, and on failure a second parse with every
single quote replaced by a double quote. -/
def parse_gemini_json (raw : Str) : Option JVal :=
  match extractJsonStr raw with
  | none => none
  | some js =>
    match jsonLoads js with
    | some v => some v
    | none => jsonLoads (js.map (fun c => if c = '\'' then '"' else c))

end SymptomPredictor

namespace PrescriptionApp

/-- src/app.py `parse_gemini_json` (lines 37-64): the shared recovery
pipeline followed by a single strict parse; any parse failure yields `None`
(there is no second, quote-replacing attempt in this file). -/
def parse_gemini_json (raw : Str) : Option JVal :=
  match extractJsonStr raw with
  | none => none
  | some js => jsonLoads js

end PrescriptionApp

/-! ## Predictor data model and confidence normalisation -/

/-- A prediction candidate, the typed-with-defaults view of one entry of the
`predictions` array (every field access in the source is absence-tolerant:
`p.get("disease", "Unknown")`, `p.get("probability", 0.0)`, etc.). -/
structure Pred where
  disease : Str
  probability : ℚ
  description : Str
  consult : Str
  precautions : List Str
  links : List Str
deriving DecidableEq

/-- The canonicalisation applied by both `get_prob` (inside
`heuristic_inject`) and `norm_prob` (in the results column): a probability
reported above 1 is treated as a percentage and clamped to at most 1. -/
def canonProb (p : Pred) : ℚ :=
  if p.probability > 1 then min 1 (p.probability / 100) else p.probability

/-- Python's `sorted(l, key, reverse=True)` is a stable descending sort;
`insertDescBy` places `x` after every already-placed element with a key
that is not smaller, which is exactly stable insertion for elements that
originally follow the already-placed ones. -/
def insertDescBy (key : α → ℚ) (x : α) : List α → List α
  | [] => [x]
  | y :: ys => if key y ≤ key x then x :: y :: ys else y :: insertDescBy key x ys

/-- Stable descending sort by a rational key, modelling
`sorted(l, key=key, reverse=True)`. -/
def sortDescBy (key : α → ℚ) (l : List α) : List α :=
  l.foldr (insertDescBy key) []

/-- `top_prob` of `heuristic_inject`: `max(get_prob(p) for p in preds)` when
the list is non-empty, `0.0` otherwise. -/
def topProb : List Pred → ℚ
  | [] => 0
  | p :: ps => ps.foldl (fun a q => max a (canonProb q)) (canonProb p)

/-- Sum of the raw `probability` fields of a list of candidates. -/
def sumProbs (l : List Pred) : ℚ := (l.map Pred.probability).sum

/-- `preds_sorted[:3]` of the high-confidence branch of the results column
(src/symptom_predictor.py lines 429, 448): the candidates sorted descending
by canonical probability, truncated to the first three. -/
def normTake (preds : List Pred) : List Pred := (sortDescBy canonProb preds).take 3

/-- `total = sum(norm_prob(p) for p in preds_sorted[:3]) or 1.0`
(line 447): Python's `or` replaces a zero sum by 1. -/
def normTotal (preds : List Pred) : ℚ :=
  if ((normTake preds).map canonProb).sum = 0 then 1
  else ((normTake preds).map canonProb).sum

/-- The high-confidence branch of the results column
(src/symptom_predictor.py lines 445-456): sort descending by canonical
probability, keep the first three, and divide each canonical probability by
their sum, rounding to three decimals; descriptive fields are copied
through unchanged. -/
def normHigh (preds : List Pred) : List Pred :=
  (normTake preds).map (fun p =>
    { disease := p.disease
      probability := round3 (canonProb p / normTotal preds)
      description := p.description
      consult := p.consult
      precautions := p.precautions
      links := p.links })

/-! ## Heuristic fallback (`heuristic_inject`) -/

/-- `COMMON_HEURISTIC_MAP` (src/symptom_predictor.py lines 236-247). -/
def COMMON_HEURISTIC_MAP : List (Str × List Str) :=
  [ (("common cold").toList,
      [("runny nose").toList, ("sneezing").toList, ("sore throat").toList,
       ("nasal").toList, ("congestion").toList]),
    (("influenza (flu)").toList,
      [("high fever").toList, ("body ache").toList, ("body aches").toList,
       ("chills").toList, ("high fever").toList]),
    (("covid-19").toList,
      [("loss of smell").toList, ("loss of taste").toList, ("covid").toList,
       ("sore throat").toList, ("fever").toList, ("dry cough").toList]),
    (("urinary tract infection").toList,
      [("painful urination").toList, ("blood in urine").toList,
       ("frequent urination").toList, ("burning urination").toList]),
    (("gastroenteritis").toList,
      [("diarrhea").toList, ("vomiting").toList, ("stomach pain").toList,
       ("abdominal cramps").toList, ("nausea").toList]),
    (("migraine").toList,
      [("migraine").toList, ("one-sided headache").toList,
       ("throbbing headache").toList, ("aura").toList]),
    (("pcos").toList,
      [("irregular period").toList, ("irregular periods").toList, ("acne").toList,
       ("hirsutism").toList, ("excess hair").toList, ("weight gain").toList]),
    (("hypothyroidism").toList,
      [("weight gain").toList, ("cold intolerance").toList, ("fatigue").toList,
       ("constipation").toList, ("dry skin").toList]),
    (("anemia").toList,
      [("fatigue").toList, ("pale").toList, ("shortness of breath").toList,
       ("dizziness").toList]),
    (("gastritis").toList,
      [("heartburn").toList, ("stomach pain").toList, ("upper abdominal pain").toList,
       ("indigestion").toList, ("bloating").toList]) ]

/-- Association-list update with Python dict semantics: an existing key
keeps its position, a new key is appended. -/
def setKey (k : Str) (v : ℚ) : List (Str × ℚ) → List (Str × ℚ)
  | [] => [(k, v)]
  | kv :: rest => if kv.1 = k then (k, v) :: rest else kv :: setKey k v rest

/-- Association-list lookup with a default, Python's `d.get(k, default)`. -/
def getD (m : List (Str × ℚ)) (k : Str) (default : ℚ) : ℚ :=
  match m with
  | [] => default
  | kv :: rest => if kv.1 = k then kv.2 else getD rest k default

/-- The inner keyword loop of `heuristic_inject` for one condition: the
score `0.25 + min(0.35, 0.05 * count)` of the FIRST keyword occurring in
the text (the loop `break`s after the first match), or `none` when no
keyword matches. -/
def kwScore (text : Str) : List Str → Option ℚ
  | [] => none
  | kw :: rest =>
    if hasSub kw text then
      some (1/4 + min (7/20) ((1/20) * (countSub kw text : ℚ)))
    else kwScore text rest

/-- The `added` dict after the keyword loop of `heuristic_inject`
(lines 274-284): one entry per condition whose keyword list matched,
assembled in table order with `added[disease] = max(added.get(disease,
0.0), base)`. -/
def buildAdded (text : Str) : List (Str × ℚ) :=
  COMMON_HEURISTIC_MAP.foldl
    (fun acc e =>
      match kwScore text e.2 with
      | some base => setKey e.1 (max (getD acc e.1 0) base) acc
      | none => acc)
    []

/-- The category fallbacks (lines 287-293), applied only when the keyword
table produced nothing: respiratory words add `common cold` at 0.30, else
gastro-intestinal words add `gastroenteritis` at 0.30, else headache words
add `migraine` at 0.25. -/
def categoryFallback (text : Str) : List (Str × ℚ) :=
  if [("cough").toList, ("sore throat").toList, ("runny").toList,
      ("sneezing").toList, ("nasal").toList].any (fun w => hasSub w text) then
    [(("common cold").toList, 3/10)]
  else if [("diarrhea").toList, ("vomit").toList, ("nausea").toList,
      ("stomach").toList].any (fun w => hasSub w text) then
    [(("gastroenteritis").toList, 3/10)]
  else if [("headache").toList, ("migraine").toList].any (fun w => hasSub w text) then
    [(("migraine").toList, 1/4)]
  else []

/-- The `added` dict including the category fallbacks. -/
def addedFinal (text : Str) : List (Str × ℚ) :=
  let a := buildAdded text
  if a = [] then categoryFallback text else a

/-- The merged-dict key of a model candidate:
`(p.get("disease") or "Unknown").strip()` lower-cased. -/
def predKey (p : Pred) : Str :=
  lowerStr (strip (if p.disease = [] then ("Unknown").toList else p.disease))

/-- The `merged` dict of `heuristic_inject` (lines 296-304): model
candidates first (later duplicates overwrite), then each heuristic entry
raises its (lower-cased) key to the maximum of the existing and heuristic
scores. -/
def mergedOf (text : Str) (preds : List Pred) : List (Str × ℚ) :=
  (addedFinal text).foldl
    (fun m np => setKey (lowerStr np.1) (max (getD m (lowerStr np.1) 0) np.2) m)
    (preds.foldl (fun m p => setKey (predKey p) (canonProb p) m) [])

/-- The `items` list (lines 307-313): one placeholder candidate per merged
entry, with the condition name title-cased; if that list is empty and the
model candidates are not, fall back to the model candidates. -/
def itemsOf (text : Str) (preds : List Pred) : List Pred :=
  let items := (mergedOf text preds).map (fun np =>
    { disease := titleStr np.1
      probability := np.2
      description := []
      consult := []
      precautions := []
      links := [] })
  if items = [] ∧ preds ≠ [] then preds else items

/-- The normalisation pass of `heuristic_inject` (lines 316-319): when the
probabilities of `items` have a positive sum, each is divided by that sum
and rounded to three decimals. -/
def normedItems (text : Str) (preds : List Pred) : List Pred :=
  if sumProbs (itemsOf text preds) > 0 then
    (itemsOf text preds).map (fun i =>
      { i with probability := round3 (i.probability / sumProbs (itemsOf text preds)) })
  else itemsOf text preds

/-- The low-confidence result of `heuristic_inject` (lines 321-333): sort
the normalised items descending by their probability field, keep the first
three, and rebuild each entry with placeholder defaults (Python's
`it.get(...) or default` is the identity on these always-present fields). -/
def lowResult (text : Str) (preds : List Pred) : List Pred :=
  ((sortDescBy Pred.probability (normedItems text preds)).take 3).map (fun it =>
    { disease := it.disease
      probability := it.probability
      description := it.description
      consult := it.consult
      precautions := it.precautions
      links := it.links })

/-- `heuristic_inject` (src/symptom_predictor.py lines 249-333).  When the
top canonical probability reaches the threshold the sorted candidates are
returned unchanged; otherwise keyword heuristics are merged in over the
lower-cased text, the merged probabilities are normalised to sum to 1 (when
positive) with rounding to three decimals, and the top three by probability
are kept, descriptive fields defaulting to empty placeholders. -/
def heuristic_inject (common_text : Str) (preds : List Pred)
    (min_top_thresh : ℚ) : List Pred :=
  if topProb preds ≥ min_top_thresh then
    sortDescBy canonProb preds
  else
    lowResult (lowerStr common_text) preds

/-! ## Extractor presenter: interaction grouping -/

/-- A drug interaction, the typed-with-defaults view of one entry of the
`interactions` array of the extractor schema. -/
structure Interaction where
  drug1 : Str
  drug2 : Str
  risk_level : Str
  effect : Str
  mechanism : Str
  recommendation : Str
deriving DecidableEq

/-- The fixed risk order `["High", "Moderate", "Low"]` of src/app.py. -/
def riskOrder : List Str := [("High").toList, ("Moderate").toList, ("Low").toList]

/-- The interaction-grouping loop of src/app.py (lines 384-391): for each
level in the fixed order, collect the interactions whose lower-cased
`risk_level` equals the lower-cased level; empty groups are skipped; a
rendered group carries its heading count `len(group)` and its interactions
in upstream order. -/
def groupInteractions (inters : List Interaction) : List (Str × Nat × List Interaction) :=
  riskOrder.filterMap (fun level =>
    let group := inters.filter (fun i => lowerStr i.risk_level = lowerStr level)
    if group = [] then none else some (level, group.length, group))

/-! ## Stored analysis state and raw-fallback rendering -/

/-- Truthiness of a parsed JSON value, as used by
`if data_obj and ... :` and `if data:` (Python: `None`, `False`, `0`, `""`,
`[]`, `{}` are falsy). -/
def jTruthy : JVal → Bool
  | JVal.jnull => false
  | JVal.jbool b => b
  | JVal.jnum q => q ≠ 0
  | JVal.jstr s => !s.isEmpty
  | JVal.jarr xs => !xs.isEmpty
  | JVal.jobj fs => !fs.isEmpty

/-- `d.get(k)` on a parsed JSON object (`none` when absent or not a dict). -/
def jGet (v : JVal) (k : Str) : Option JVal :=
  match v with
  | JVal.jobj fs => (fs.find? (fun kv => kv.1 = k)).map Prod.snd
  | _ => none

/-- Truthiness of `d.get(k)` (a missing key yields `None`, which is falsy). -/
def jGetTruthy (v : JVal) (k : Str) : Bool :=
  match jGet v k with
  | some w => jTruthy w
  | none => false

/-- Whether a parsed value is a dict (`isinstance(data_obj, dict)`). -/
def jIsDict : JVal → Bool
  | JVal.jobj _ => true
  | _ => false

/-- The sentinel `{"predictions": []}` stored by the predictor trigger when
the parsed object is unusable. -/
def predsEmptyObj : JVal := JVal.jobj [(("predictions").toList, JVal.jarr [])]

/-- The predictor's stored UI state (session keys `predictions_data` and
`predictions_raw`). -/
structure PredUIState where
  predictions_data : Option JVal
  predictions_raw : Option Str

/-- The predictor analyze trigger (src/symptom_predictor.py lines 566-583):
store the raw text, and store the parsed object only when it is a truthy
dict with a truthy `predictions` entry, otherwise store the sentinel
`{"predictions": []}`. -/
def predictorAfterAnalyze (data_obj : Option JVal) (raw_text : Str) : PredUIState :=
  { predictions_raw := some raw_text
    predictions_data :=
      match data_obj with
      | some v =>
        if jTruthy v ∧ jIsDict v ∧ jGetTruthy v (("predictions").toList) then some v
        else some predsEmptyObj
      | none => some predsEmptyObj }

/-- Truthiness of the stored structured slot (`if data:`). -/
def slotTruthy : Option JVal → Bool
  | some v => jTruthy v
  | none => false

/-- Whether the predictor results column renders the raw model text
(lines 542-545): only when the structured slot is falsy and raw text is
present. -/
def predShowsRaw (st : PredUIState) : Bool :=
  !slotTruthy st.predictions_data &&
    (match st.predictions_raw with
     | some r => r ≠ []
     | none => false)

/-- The extractor's stored UI state (session keys `analysis_data` and
`analysis_raw`). -/
structure AppUIState where
  analysis_data : Option JVal
  analysis_raw : Option Str

/-- The extractor analyze trigger (src/app.py lines 451-464): the parsed
object (possibly `None`) and the raw text are stored as returned. -/
def appAfterAnalyze (data_obj : Option JVal) (raw_text : Str) : AppUIState :=
  { analysis_data := data_obj, analysis_raw := some raw_text }

/-- Whether the extractor results column renders the raw model text
(src/app.py lines 431-439). -/
def appShowsRaw (st : AppUIState) : Bool :=
  !slotTruthy st.analysis_data &&
    (match st.analysis_raw with
     | some r => r ≠ []
     | none => false)

/-! ## Basic lemmas: rounding -/

theorem round_rat_mono {a b : ℚ} (h : a ≤ b) : round a ≤ round b := by
  rw [round_eq, round_eq]
  exact Int.floor_le_floor (by linarith)

theorem round3_mono {a b : ℚ} (h : a ≤ b) : round3 a ≤ round3 b := by
  unfold round3
  have h1 : round (a * 1000) ≤ round (b * 1000) := round_rat_mono (by linarith)
  have h2 : ((round (a * 1000) : ℤ) : ℚ) ≤ ((round (b * 1000) : ℤ) : ℚ) := by
    exact_mod_cast h1
  linarith

theorem abs_round3_sub (x : ℚ) : |round3 x - x| ≤ 1 / 2000 := by
  have h := abs_sub_round (x * 1000)
  rw [abs_sub_comm] at h
  unfold round3
  rw [show (round (x * 1000) : ℚ) / 1000 - x = ((round (x * 1000) : ℚ) - x * 1000) / 1000 by
    ring]
  rw [abs_div]
  rw [show |(1000 : ℚ)| = 1000 by norm_num]
  linarith

theorem round3_nonneg {x : ℚ} (h : 0 ≤ x) : 0 ≤ round3 x := by
  unfold round3
  have h1 : (0 : ℤ) ≤ round (x * 1000) := by
    rw [round_eq]
    exact Int.le_floor.mpr (by push_cast; linarith)
  have h2 : (0 : ℚ) ≤ ((round (x * 1000) : ℤ) : ℚ) := by exact_mod_cast h1
  linarith

theorem round3_le_one {x : ℚ} (h : x ≤ 1) : round3 x ≤ 1 := by
  unfold round3
  have h1 : round (x * 1000) ≤ round ((1000 : ℚ)) := round_rat_mono (by linarith)
  have h2 : round ((1000 : ℚ)) = 1000 := by
    rw [show ((1000 : ℚ)) = ((1000 : ℤ) : ℚ) by norm_num, round_intCast]
  rw [h2] at h1
  have h3 : ((round (x * 1000) : ℤ) : ℚ) ≤ 1000 := by exact_mod_cast h1
  linarith

theorem round3_int_div (k : ℤ) : round3 ((k : ℚ) / 1000) = (k : ℚ) / 1000 := by
  unfold round3
  rw [show ((k : ℚ) / 1000) * 1000 = (k : ℚ) by ring, round_intCast]

theorem round3_round3 (x : ℚ) : round3 (round3 x) = round3 x := round3_int_div _

/-! ## Basic lemmas: stable descending insertion sort -/

theorem insertDescBy_perm (key : α → ℚ) (x : α) (l : List α) :
    (insertDescBy key x l).Perm (x :: l) := by
  induction l with
  | nil => exact List.Perm.refl _
  | cons y ys ih =>
    simp only [insertDescBy]
    split
    · exact List.Perm.refl _
    · exact (ih.cons y).trans (List.Perm.swap x y ys)

theorem sortDescBy_perm (key : α → ℚ) (l : List α) : (sortDescBy key l).Perm l := by
  induction l with
  | nil => exact List.Perm.refl _
  | cons x xs ih => exact (insertDescBy_perm key x (sortDescBy key xs)).trans (ih.cons x)

theorem pairwise_insertDescBy (key : α → ℚ) (x : α) {l : List α}
    (h : List.Pairwise (fun a b => key b ≤ key a) l) :
    List.Pairwise (fun a b => key b ≤ key a) (insertDescBy key x l) := by
  induction l with
  | nil => simp [insertDescBy]
  | cons y ys ih =>
    rcases List.pairwise_cons.mp h with ⟨hy, hys⟩
    simp only [insertDescBy]
    split
    · rename_i hcond
      refine List.pairwise_cons.mpr ⟨?_, h⟩
      intro b hb
      rcases List.mem_cons.mp hb with rfl | hb
      · exact hcond
      · exact (hy b hb).trans hcond
    · rename_i hcond
      refine List.pairwise_cons.mpr ⟨?_, ih hys⟩
      intro b hb
      rcases List.mem_cons.mp ((insertDescBy_perm key x ys).mem_iff.mp hb) with rfl | hb
      · exact le_of_not_le hcond
      · exact hy b hb

theorem pairwise_sortDescBy (key : α → ℚ) (l : List α) :
    List.Pairwise (fun a b => key b ≤ key a) (sortDescBy key l) := by
  induction l with
  | nil => simp [sortDescBy]
  | cons x xs ih => exact pairwise_insertDescBy key x ih

theorem sortDescBy_eq_self (key : α → ℚ) {l : List α}
    (h : List.Pairwise (fun a b => key b ≤ key a) l) : sortDescBy key l = l := by
  induction l with
  | nil => rfl
  | cons x xs ih =>
    rcases List.pairwise_cons.mp h with ⟨hx, hxs⟩
    show insertDescBy key x (sortDescBy key xs) = x :: xs
    rw [ih hxs]
    cases xs with
    | nil => rfl
    | cons y ys => simp [insertDescBy, hx y (List.mem_cons_self y ys)]

/-! ## Basic lemmas: sums -/

theorem sum_map_div {α : Type} (l : List α) (f : α → ℚ) (T : ℚ) :
    (l.map (fun x => f x / T)).sum = (l.map f).sum / T := by
  induction l with
  | nil => simp
  | cons x t ih => simp [ih, add_div]

theorem abs_sum_round3 (xs : List ℚ) :
    |(xs.map round3).sum - xs.sum| ≤ (xs.length : ℚ) * (1 / 2000) := by
  induction xs with
  | nil => simp
  | cons x t ih =>
    simp only [List.map_cons, List.sum_cons, List.length_cons]
    have h1 : |round3 x + (t.map round3).sum - (x + t.sum)|
        ≤ |round3 x - x| + |(t.map round3).sum - t.sum| := by
      have := abs_add (round3 x - x) ((t.map round3).sum - t.sum)
      calc |round3 x + (t.map round3).sum - (x + t.sum)|
          = |(round3 x - x) + ((t.map round3).sum - t.sum)| := by ring_nf
        _ ≤ _ := this
    have h2 := abs_round3_sub x
    push_cast
    linarith

/-! ## Basic lemmas: canonical probability and the top confidence -/

theorem canonProb_nonneg {p : Pred} (h : 0 ≤ p.probability) : 0 ≤ canonProb p := by
  unfold canonProb
  split
  · rename_i hgt
    exact le_min (by norm_num) (by linarith)
  · exact h

theorem canonProb_le_one (p : Pred) : canonProb p ≤ 1 := by
  unfold canonProb
  split
  · exact min_le_left _ _
  · rename_i hle
    linarith [not_lt.mp hle]

theorem canonProb_eq_self {p : Pred} (h : p.probability ≤ 1) : canonProb p = p.probability := by
  unfold canonProb
  rw [if_neg (by linarith)]

theorem foldl_max_ge_init (a : ℚ) (l : List ℚ) : a ≤ l.foldl max a := by
  induction l generalizing a with
  | nil => exact le_refl a
  | cons y t ih => exact le_trans (le_max_left a y) (ih (max a y))

theorem foldl_max_ge_mem {x : ℚ} {l : List ℚ} (hx : x ∈ l) (a : ℚ) : x ≤ l.foldl max a := by
  induction l generalizing a with
  | nil => cases hx
  | cons y t ih =>
    rcases List.mem_cons.mp hx with rfl | hmem
    · exact le_trans (le_max_right a x) (foldl_max_ge_init _ t)
    · exact ih hmem (max a y)

theorem foldl_max_le {c : ℚ} (l : List ℚ) (a : ℚ) (ha : a ≤ c) (hl : ∀ x ∈ l, x ≤ c) :
    l.foldl max a ≤ c := by
  induction l generalizing a with
  | nil => exact ha
  | cons y t ih =>
    exact ih (max a y) (max_le ha (hl y (List.mem_cons_self y t)))
      (fun x hx => hl x (List.mem_cons_of_mem y hx))

theorem topProb_eq_foldl (p : Pred) (ps : List Pred) :
    topProb (p :: ps) = (ps.map canonProb).foldl max (canonProb p) := by
  simp [topProb, List.foldl_map]

theorem le_topProb {p : Pred} {preds : List Pred} (hp : p ∈ preds) :
    canonProb p ≤ topProb preds := by
  cases preds with
  | nil => cases hp
  | cons q qs =>
    rw [topProb_eq_foldl]
    rcases List.mem_cons.mp hp with rfl | hmem
    · exact foldl_max_ge_init _ _
    · exact foldl_max_ge_mem (List.mem_map_of_mem canonProb hmem) _

theorem topProb_le {c : ℚ} {preds : List Pred} (h0 : 0 ≤ c)
    (h : ∀ p ∈ preds, canonProb p ≤ c) : topProb preds ≤ c := by
  cases preds with
  | nil => exact h0
  | cons q qs =>
    rw [topProb_eq_foldl]
    refine foldl_max_le _ _ (h q (List.mem_cons_self q qs)) ?_
    intro x hx
    rcases List.mem_map.mp hx with ⟨p, hp, rfl⟩
    exact h p (List.mem_cons_of_mem q hp)

/-! ## Helper lemmas about the high-confidence normaliser -/

theorem mem_of_mem_normTake {q : Pred} {preds : List Pred} (h : q ∈ normTake preds) :
    q ∈ preds :=
  (sortDescBy_perm canonProb preds).mem_iff.mp (List.take_subset 3 _ h)

theorem normTotal_pos {preds : List Pred} (hnn : ∀ p ∈ preds, 0 ≤ p.probability) :
    0 < normTotal preds := by
  unfold normTotal
  split
  · norm_num
  · rename_i hs
    have hge : 0 ≤ ((normTake preds).map canonProb).sum := by
      refine List.sum_nonneg ?_
      intro x hx
      rcases List.mem_map.mp hx with ⟨p, hp, rfl⟩
      exact canonProb_nonneg (hnn p (mem_of_mem_normTake hp))
    exact lt_of_le_of_ne hge (Ne.symm hs)

theorem canon_div_normTotal_mem {preds : List Pred} (hnn : ∀ p ∈ preds, 0 ≤ p.probability)
    {p : Pred} (hp : p ∈ normTake preds) :
    0 ≤ canonProb p / normTotal preds ∧ canonProb p / normTotal preds ≤ 1 := by
  have hpm : p ∈ preds := mem_of_mem_normTake hp
  have hc0 : 0 ≤ canonProb p := canonProb_nonneg (hnn p hpm)
  have hT : 0 < normTotal preds := normTotal_pos hnn
  constructor
  · positivity
  · have hmemsum : canonProb p ≤ ((normTake preds).map canonProb).sum :=
      List.single_le_sum
        (fun x hx => by
          rcases List.mem_map.mp hx with ⟨r, hr, rfl⟩
          exact canonProb_nonneg (hnn r (mem_of_mem_normTake hr)))
        _ (List.mem_map_of_mem canonProb hp)
    by_cases hs : ((normTake preds).map canonProb).sum = 0
    · have hc0' : canonProb p = 0 := le_antisymm (hs ▸ hmemsum) hc0
      rw [hc0']
      simp
    · have hTs : normTotal preds = ((normTake preds).map canonProb).sum := by
        unfold normTotal
        rw [if_neg hs]
      rw [div_le_one hT, hTs]
      exact hmemsum

theorem normHigh_mem_facts {preds : List Pred} (hnn : ∀ p ∈ preds, 0 ≤ p.probability) :
    ∀ q ∈ normHigh preds,
      0 ≤ q.probability ∧ q.probability ≤ 1 ∧ round3 q.probability = q.probability ∧
        canonProb q = q.probability := by
  intro q hq
  rcases List.mem_map.mp hq with ⟨p, hp, rfl⟩
  have hd := canon_div_normTotal_mem hnn hp
  refine ⟨round3_nonneg hd.1, round3_le_one hd.2, round3_round3 _, ?_⟩
  exact canonProb_eq_self (round3_le_one hd.2)

theorem normHigh_prob_pairwise {preds : List Pred} (hnn : ∀ p ∈ preds, 0 ≤ p.probability) :
    List.Pairwise (fun a b => Pred.probability b ≤ Pred.probability a) (normHigh preds) := by
  have hT : 0 < normTotal preds := normTotal_pos hnn
  have hsorted : List.Pairwise (fun a b => canonProb b ≤ canonProb a) (normTake preds) :=
    (pairwise_sortDescBy canonProb preds).sublist (List.take_sublist 3 _)
  refine List.pairwise_map.mpr ?_
  refine hsorted.imp ?_
  intro a b hab
  exact round3_mono ((div_le_div_iff_of_pos_right hT).mpr hab)

theorem normHigh_pairwise {preds : List Pred} (hnn : ∀ p ∈ preds, 0 ≤ p.probability) :
    List.Pairwise (fun a b => canonProb b ≤ canonProb a) (normHigh preds) := by
  refine List.Pairwise.imp_of_mem ?_ (normHigh_prob_pairwise hnn)
  intro a b ha hb hr
  rw [(normHigh_mem_facts hnn a ha).2.2.2, (normHigh_mem_facts hnn b hb).2.2.2]
  exact hr

theorem normHigh_length (preds : List Pred) :
    (normHigh preds).length = min 3 preds.length := by
  unfold normHigh normTake
  rw [List.length_map, List.length_take, (sortDescBy_perm canonProb preds).length_eq]

theorem sorted_head_topProb {preds : List Pred} {q : Pred} {rest : List Pred}
    (hnn : ∀ p ∈ preds, 0 ≤ p.probability)
    (hq : sortDescBy canonProb preds = q :: rest) :
    topProb preds ≤ canonProb q := by
  refine topProb_le (canonProb_nonneg (hnn q ?_)) ?_
  · exact (sortDescBy_perm canonProb preds).mem_iff.mp (hq ▸ List.mem_cons_self q rest)
  · intro p hp
    have hmem : p ∈ q :: rest := hq ▸ ((sortDescBy_perm canonProb preds).mem_iff.mpr hp)
    rcases List.mem_cons.mp hmem with rfl | hmem2
    · exact le_refl _
    · have hpw := pairwise_sortDescBy canonProb preds
      rw [hq] at hpw
      exact (List.pairwise_cons.mp hpw).1 p hmem2

theorem normHigh_sum {preds : List Pred} (hnn : ∀ p ∈ preds, 0 ≤ p.probability)
    (htop : 3 / 10 ≤ topProb preds) :
    |sumProbs (normHigh preds) - 1| ≤ 3 / 2000 := by
  have hne : preds ≠ [] := by
    intro h
    rw [h] at htop
    norm_num [topProb] at htop
  obtain ⟨q, rest, hq⟩ : ∃ q rest, sortDescBy canonProb preds = q :: rest := by
    have hne2 : sortDescBy canonProb preds ≠ [] := by
      intro h0
      apply hne
      have hl := (sortDescBy_perm canonProb preds).length_eq
      rw [h0] at hl
      exact List.length_eq_zero.mp hl.symm
    exact List.exists_cons_of_ne_nil hne2
  have hqtake : q ∈ normTake preds := by
    unfold normTake
    rw [hq]
    exact List.mem_cons_self q _
  have hs_ge : canonProb q ≤ ((normTake preds).map canonProb).sum :=
    List.single_le_sum
      (fun x hx => by
        rcases List.mem_map.mp hx with ⟨r, hr, rfl⟩
        exact canonProb_nonneg (hnn r (mem_of_mem_normTake hr)))
      _ (List.mem_map_of_mem canonProb hqtake)
  have hhead : 3 / 10 ≤ canonProb q := le_trans htop (sorted_head_topProb hnn hq)
  have hs_pos : ((normTake preds).map canonProb).sum ≠ 0 := by
    intro h0
    rw [h0] at hs_ge
    linarith
  have hT : normTotal preds = ((normTake preds).map canonProb).sum := by
    unfold normTotal
    rw [if_neg hs_pos]
  have hsum1 : ((normTake preds).map (fun p => canonProb p / normTotal preds)).sum = 1 := by
    rw [sum_map_div, hT, div_self hs_pos]
  have hlen : (normTake preds).length ≤ 3 := by
    unfold normTake
    rw [List.length_take]
    exact min_le_left _ _
  have hrw : sumProbs (normHigh preds)
      = (((normTake preds).map (fun p => canonProb p / normTotal preds)).map round3).sum := by
    unfold sumProbs normHigh
    rw [List.map_map, List.map_map]
    rfl
  rw [hrw]
  have habs := abs_sum_round3 ((normTake preds).map (fun p => canonProb p / normTotal preds))
  rw [hsum1] at habs
  have hlen2 : (((normTake preds).map (fun p => canonProb p / normTotal preds)).length : ℚ)
      ≤ 3 := by
    rw [List.length_map]
    exact_mod_cast hlen
  calc |(((normTake preds).map (fun p => canonProb p / normTotal preds)).map round3).sum - 1|
      ≤ _ * (1 / 2000) := habs
    _ ≤ 3 * (1 / 2000) := by
        apply mul_le_mul_of_nonneg_right hlen2
        norm_num
    _ = 3 / 2000 := by norm_num

theorem forall2_map_self {α : Type} {f : α → α} {R : α → α → Prop} (l : List α)
    (h : ∀ x ∈ l, R (f x) x) : List.Forall₂ R (l.map f) l := by
  induction l with
  | nil => exact List.Forall₂.nil
  | cons x t ih =>
    exact List.Forall₂.cons (h x (List.mem_cons_self x t))
      (ih (fun y hy => h y (List.mem_cons_of_mem x hy)))

theorem normHigh_fields (preds : List Pred) :
    List.Forall₂ (fun q p => q.disease = p.disease ∧ q.description = p.description ∧
        q.consult = p.consult ∧ q.precautions = p.precautions ∧ q.links = p.links)
      (normHigh preds) (normTake preds) := by
  refine forall2_map_self _ ?_
  intro p _
  exact ⟨rfl, rfl, rfl, rfl, rfl⟩

/-! ## Concrete data for the worked examples -/

/-- The PCOS candidate of the spec's end-to-end example (probability 0.70,
descriptive fields supplied by the model). -/
def pcosEx : Pred :=
  { disease := ("Polycystic ovary syndrome (PCOS)").toList
    probability := 7 / 10
    description := ("Hormonal disorder with irregular cycles.").toList
    consult := ("Endocrinology / Gyn").toList
    precautions := [("Check glucose and lipids").toList]
    links := [] }

/-- The hypothyroidism candidate of the spec's end-to-end example
(probability 0.15). -/
def hypoEx : Pred :=
  { disease := ("Hypothyroidism").toList
    probability := 3 / 20
    description := ("Low thyroid hormone.").toList
    consult := ("Endocrinology").toList
    precautions := [("Check TSH/T4").toList]
    links := [] }

/-- `pcosEx` with its probability rescaled to 0.824. -/
def pcosOut : Pred := { pcosEx with probability := 824 / 1000 }

/-- `hypoEx` with its probability rescaled to 0.176. -/
def hypoOut : Pred := { hypoEx with probability := 176 / 1000 }

/-! ## Claim C3 -/

/-- C3: for every predictor response with nonnegative probability fields
whose top canonical probability is at least 0.30, the high-confidence
normaliser returns exactly `min 3 n` entries, sorted descending by
canonical probability, with probabilities summing to 1 up to rounding
(within 3/2000), the descriptive fields preserved verbatim from the sorted
top-3 candidates; in particular PCOS at 0.70 and hypothyroidism at 0.15
yield exactly PCOS at 0.824 followed by hypothyroidism at 0.176. -/
theorem normHigh_high_confidence_spec (preds : List Pred)
    (hnn : ∀ p ∈ preds, 0 ≤ p.probability)
    (htop : 3 / 10 ≤ topProb preds) :
    (normHigh preds).length = min 3 preds.length
    ∧ List.Pairwise (fun a b => canonProb b ≤ canonProb a) (normHigh preds)
    ∧ |sumProbs (normHigh preds) - 1| ≤ 3 / 2000
    ∧ List.Forall₂ (fun q p => q.disease = p.disease ∧ q.description = p.description ∧
        q.consult = p.consult ∧ q.precautions = p.precautions ∧ q.links = p.links)
      (normHigh preds) (normTake preds)
    ∧ normHigh [pcosEx, hypoEx] = [pcosOut, hypoOut] := by
  refine ⟨normHigh_length preds, normHigh_pairwise hnn, normHigh_sum hnn htop,
    normHigh_fields preds, ?_⟩
  norm_num [normHigh, normTake, normTotal, sortDescBy, insertDescBy, canonProb,
    pcosEx, hypoEx, pcosOut, hypoOut, round3, List.foldr, List.take, round_eq]

/-- C3 witness: the general theorem applied to the spec's concrete
two-candidate example. -/
theorem normHigh_high_confidence_spec_witness :
    (normHigh [pcosEx, hypoEx]).length = min 3 ([pcosEx, hypoEx].length)
    ∧ |sumProbs (normHigh [pcosEx, hypoEx]) - 1| ≤ 3 / 2000 :=
  ⟨(normHigh_high_confidence_spec [pcosEx, hypoEx]
      (by norm_num [pcosEx, hypoEx])
      (by norm_num [topProb, canonProb, pcosEx, hypoEx, max_def])).1,
   (normHigh_high_confidence_spec [pcosEx, hypoEx]
      (by norm_num [pcosEx, hypoEx])
      (by norm_num [topProb, canonProb, pcosEx, hypoEx, max_def])).2.2.1⟩

/-! ## Claim C9 -/

/-- C9 (amended): the high-confidence normaliser is idempotent on its own
output whenever the input probabilities are nonnegative, the top canonical
probability is at least 0.30, and the rounded output probabilities sum to
exactly 1. -/
theorem normHigh_idempotent_of_sum_one (preds : List Pred)
    (hnn : ∀ p ∈ preds, 0 ≤ p.probability)
    (htop : 3 / 10 ≤ topProb preds)
    (hsum : sumProbs (normHigh preds) = 1) :
    normHigh (normHigh preds) = normHigh preds := by
  have hfacts := normHigh_mem_facts hnn
  have hpw := normHigh_pairwise hnn
  have hlen : (normHigh preds).length ≤ 3 := by
    rw [normHigh_length]
    exact min_le_left _ _
  have hsort : sortDescBy canonProb (normHigh preds) = normHigh preds :=
    sortDescBy_eq_self canonProb hpw
  have htake : normTake (normHigh preds) = normHigh preds := by
    unfold normTake
    rw [hsort]
    exact List.take_of_length_le hlen
  have hcansum : ((normTake (normHigh preds)).map canonProb).sum = 1 := by
    rw [htake]
    have hmc : (normHigh preds).map canonProb = (normHigh preds).map Pred.probability :=
      List.map_congr_left (fun q hq => (hfacts q hq).2.2.2)
    rw [hmc]
    exact hsum
  have hT : normTotal (normHigh preds) = 1 := by
    unfold normTotal
    rw [hcansum]
    norm_num
  show (normTake (normHigh preds)).map _ = normHigh preds
  rw [htake]
  refine (List.map_congr_left ?_).trans (List.map_id _)
  intro q hq
  have h1 := (hfacts q hq).2.2.1
  have h2 := (hfacts q hq).2.2.2
  show (⟨q.disease, round3 (canonProb q / normTotal (normHigh preds)), q.description,
    q.consult, q.precautions, q.links⟩ : Pred) = q
  rw [hT, div_one, h2, h1]

/-- The three-candidate list (0.5004, 0.2503, 0.2493) on which the
high-confidence normaliser is not idempotent. -/
def cexIdem : List Pred :=
  [⟨("a").toList, 5004 / 10000, [], [], [], []⟩,
   ⟨("b").toList, 2503 / 10000, [], [], [], []⟩,
   ⟨("c").toList, 2493 / 10000, [], [], [], []⟩]

/-- C9 counterexample: the claim as stated is false.  The candidate list
(0.5004, 0.2503, 0.2493) normalises to (0.500, 0.250, 0.249) — an output of
the 0.30-branch with top confidence 0.500 — whose rounded probabilities sum
to 0.999, and a second application of the normaliser changes it to
(0.501, 0.250, 0.249). -/
theorem normHigh_not_idempotent :
    normHigh (normHigh cexIdem) ≠ normHigh cexIdem
    ∧ sumProbs (normHigh cexIdem) = 999 / 1000 := by
  have h1 : normHigh cexIdem =
      [⟨("a").toList, 500 / 1000, [], [], [], []⟩,
       ⟨("b").toList, 250 / 1000, [], [], [], []⟩,
       ⟨("c").toList, 249 / 1000, [], [], [], []⟩] := by
    norm_num [normHigh, normTake, normTotal, sortDescBy, insertDescBy, canonProb,
      cexIdem, round3, List.foldr, List.take, round_eq]
  have h2 : normHigh
      [⟨("a").toList, 500 / 1000, [], [], [], []⟩,
       ⟨("b").toList, 250 / 1000, [], [], [], []⟩,
       ⟨("c").toList, 249 / 1000, [], [], [], []⟩] =
      [⟨("a").toList, 501 / 1000, [], [], [], []⟩,
       ⟨("b").toList, 250 / 1000, [], [], [], []⟩,
       ⟨("c").toList, 249 / 1000, [], [], [], []⟩] := by
    norm_num [normHigh, normTake, normTotal, sortDescBy, insertDescBy, canonProb,
      round3, List.foldr, List.take, round_eq]
  constructor
  · rw [h1, h2]
    intro h
    simp only [List.cons.injEq, Pred.mk.injEq] at h
    exact absurd h.1.2.1 (by norm_num)
  · rw [h1]
    norm_num [sumProbs]

/-- C9 witness: the amended theorem applied to the PCOS example, whose
normalised probabilities 0.824 and 0.176 sum to exactly 1. -/
theorem normHigh_idempotent_of_sum_one_witness :
    normHigh (normHigh [pcosEx, hypoEx]) = normHigh [pcosEx, hypoEx] :=
  normHigh_idempotent_of_sum_one [pcosEx, hypoEx]
    (by norm_num [pcosEx, hypoEx])
    (by norm_num [topProb, canonProb, pcosEx, hypoEx, max_def])
    (by
      norm_num [normHigh, normTake, normTotal, sortDescBy, insertDescBy, canonProb,
        pcosEx, hypoEx, round3, List.foldr, List.take, sumProbs, round_eq])

/-! ## Claim C10 -/

/-- C10: when the top canonical probability reaches the 0.30 threshold,
`heuristic_inject` itself returns the entire input list (a permutation of
it — no truncation, no rescaling, no field changes), merely sorted
descending by canonical probability. -/
theorem heuristic_inject_confident_passthrough (text : Str) (preds : List Pred)
    (htop : 3 / 10 ≤ topProb preds) :
    heuristic_inject text preds (3 / 10) = sortDescBy canonProb preds
    ∧ (heuristic_inject text preds (3 / 10)).Perm preds
    ∧ List.Pairwise (fun a b => canonProb b ≤ canonProb a)
        (heuristic_inject text preds (3 / 10)) := by
  have heq : heuristic_inject text preds (3 / 10) = sortDescBy canonProb preds := by
    unfold heuristic_inject
    rw [if_pos (show topProb preds ≥ 3 / 10 from htop)]
  refine ⟨heq, ?_, ?_⟩
  · rw [heq]
    exact sortDescBy_perm canonProb preds
  · rw [heq]
    exact pairwise_sortDescBy canonProb preds

/-- C10 witness: applied to the two-candidate PCOS example (top canonical
probability 0.70). -/
theorem heuristic_inject_confident_passthrough_witness :
    heuristic_inject [] [hypoEx, pcosEx] (3 / 10) = sortDescBy canonProb [hypoEx, pcosEx]
    ∧ (heuristic_inject [] [hypoEx, pcosEx] (3 / 10)).Perm [hypoEx, pcosEx] := by
  refine ⟨(heuristic_inject_confident_passthrough [] [hypoEx, pcosEx]
      (by norm_num [topProb, canonProb, pcosEx, hypoEx, max_def])).1,
    (heuristic_inject_confident_passthrough [] [hypoEx, pcosEx]
      (by norm_num [topProb, canonProb, pcosEx, hypoEx, max_def])).2.1⟩

/-! ## Claim C2 -/

/-- C2 (divergence witness): on a raw model text that JSON recovery cannot
parse, the predictor trigger stores the truthy sentinel
`{"predictions": []}` in the structured slot, so the raw-fallback branch of
its results column never renders the retained raw text; the extractor
pipeline, by contrast, leaves its structured slot unset and does render the
raw text.  This contradicts both the claim and the predictor's own inline
comment ("so UI can show raw"). -/
theorem predictor_parse_failure_slot_bug :
    SymptomPredictor.parse_gemini_json (("Sorry, I cannot help.").toList) = none
    ∧ (predictorAfterAnalyze
        (SymptomPredictor.parse_gemini_json (("Sorry, I cannot help.").toList))
        (("Sorry, I cannot help.").toList)).predictions_data = some predsEmptyObj
    ∧ predShowsRaw (predictorAfterAnalyze
        (SymptomPredictor.parse_gemini_json (("Sorry, I cannot help.").toList))
        (("Sorry, I cannot help.").toList)) = false
    ∧ (predictorAfterAnalyze
        (SymptomPredictor.parse_gemini_json (("Sorry, I cannot help.").toList))
        (("Sorry, I cannot help.").toList)).predictions_raw
        = some (("Sorry, I cannot help.").toList)
    ∧ PrescriptionApp.parse_gemini_json (("Sorry, I cannot help.").toList) = none
    ∧ appShowsRaw (appAfterAnalyze
        (PrescriptionApp.parse_gemini_json (("Sorry, I cannot help.").toList))
        (("Sorry, I cannot help.").toList)) = true := by
  have hx : extractJsonStr (("Sorry, I cannot help.").toList) = none := by
    simp +decide [extractJsonStr, strip, lstrip, rstrip, replaceAll, sliceBraces]
  have hsp : SymptomPredictor.parse_gemini_json (("Sorry, I cannot help.").toList) = none := by
    rw [SymptomPredictor.parse_gemini_json, hx]
  have hap : PrescriptionApp.parse_gemini_json (("Sorry, I cannot help.").toList) = none := by
    rw [PrescriptionApp.parse_gemini_json, hx]
  rw [hsp, hap]
  exact ⟨rfl, rfl, rfl, rfl, rfl, rfl⟩

/-! ## Claim C7 -/

theorem mem_of_mem_lstrip {c : Char} {l : Str} (h : c ∈ lstrip l) : c ∈ l :=
  (List.dropWhile_sublist isPyWS).subset h

theorem mem_of_mem_rstrip {c : Char} {l : Str} (h : c ∈ rstrip l) : c ∈ l := by
  unfold rstrip at h
  rw [List.mem_reverse] at h
  exact List.mem_reverse.mp (mem_of_mem_lstrip h)

theorem mem_of_mem_strip {c : Char} {l : Str} (h : c ∈ strip l) : c ∈ l :=
  mem_of_mem_lstrip (mem_of_mem_rstrip h)

theorem mem_of_mem_replaceAll (pat : Str) {c : Char} :
    ∀ (l : Str), c ∈ replaceAll pat [] l → c ∈ l := by
  have H : ∀ (n : Nat) (l : Str), l.length ≤ n → c ∈ replaceAll pat [] l → c ∈ l := by
    intro n
    induction n with
    | zero =>
      intro l hl hc
      rw [List.length_eq_zero.mp (Nat.le_zero.mp hl)] at hc ⊢
      simpa [replaceAll] using hc
    | succ n ih =>
      intro l hl hc
      cases l with
      | nil => simpa [replaceAll] using hc
      | cons a t =>
        rw [replaceAll] at hc
        split at hc
        · simp only [List.nil_append] at hc
          have hdrop := ih (List.drop (pat.length - 1) t)
            (by
              simp only [List.length_drop]
              simp only [List.length_cons] at hl
              omega) hc
          exact List.mem_cons_of_mem a (List.drop_subset _ t hdrop)
        · rcases List.mem_cons.mp hc with rfl | hc2
          · exact List.mem_cons_self c t
          · exact List.mem_cons_of_mem a
              (ih t (by simp only [List.length_cons] at hl; omega) hc2)
  exact fun l => H l.length l (le_refl _)

theorem mem_of_mem_extract_pipeline {c : Char} {raw : Str}
    (h : c ∈ strip (replaceAll (("```").toList) []
      (replaceAll (("```json").toList) [] (strip raw)))) : c ∈ raw :=
  mem_of_mem_strip (mem_of_mem_replaceAll _ _ (mem_of_mem_replaceAll _ _
    (mem_of_mem_strip h)))

/-- C7: for every input lacking a `{` or lacking a `}` (the empty string
included), both implementations of `parse_gemini_json` return `None` — the
`ValueError` from `index`/`rindex` is caught, never propagated. -/
theorem parse_gemini_json_missing_brace (raw : Str)
    (h : '\x7b' ∉ raw ∨ '\x7d' ∉ raw) :
    SymptomPredictor.parse_gemini_json raw = none
    ∧ PrescriptionApp.parse_gemini_json raw = none := by
  have hx : extractJsonStr raw = none := by
    by_cases hraw : raw = []
    · simp [extractJsonStr, hraw]
    · have hguard : ¬('\x7b' ∈ strip (replaceAll (("```").toList) []
          (replaceAll (("```json").toList) [] (strip raw)))
          ∧ '\x7d' ∈ strip (replaceAll (("```").toList) []
          (replaceAll (("```json").toList) [] (strip raw)))) := by
        rcases h with h | h
        · exact fun hc => h (mem_of_mem_extract_pipeline hc.1)
        · exact fun hc => h (mem_of_mem_extract_pipeline hc.2)
      have hsli : sliceBraces (strip (replaceAll (("```").toList) []
          (replaceAll (("```json").toList) [] (strip raw)))) = none := by
        unfold sliceBraces
        rw [if_neg hguard]
      unfold extractJsonStr
      rw [if_neg hraw]
      show (sliceBraces (strip (replaceAll (("```").toList) []
          (replaceAll (("```json").toList) [] (strip raw))))).map cleanCommas = none
      rw [hsli]
      rfl
  constructor
  · simp [SymptomPredictor.parse_gemini_json, hx]
  · simp [PrescriptionApp.parse_gemini_json, hx]

/-- C7 witness: a concrete brace-free input. -/
theorem parse_gemini_json_missing_brace_witness :
    SymptomPredictor.parse_gemini_json (("hello world").toList) = none
    ∧ PrescriptionApp.parse_gemini_json (("hello world").toList) = none :=
  parse_gemini_json_missing_brace (("hello world").toList) (Or.inl (by decide))

/-! ## Claim C8 -/

theorem map_fst_filterMap_sublist {α β : Type} (f : α → Option (α × β))
    (hf : ∀ a p, f a = some p → p.1 = a) :
    ∀ l : List α, ((l.filterMap f).map Prod.fst).Sublist l := by
  intro l
  induction l with
  | nil => simp
  | cons a t ih =>
    rw [List.filterMap_cons]
    cases hfa : f a with
    | none => exact ih.cons a
    | some p =>
      rw [List.map_cons, hf a p hfa]
      exact ih.cons₂ a

/-- C8: the interaction presenter groups by case-insensitive risk level:
the rendered group headings follow the fixed order High, Moderate, Low with
empty groups skipped (a sublist of the order); every rendered group is
non-empty, its heading count is the group size, its interactions appear in
upstream order (a sublist of the input) and are exactly those whose
lower-cased risk level matches the group's; and every interaction whose
lower-cased risk level matches one of the three levels is rendered in that
level's group. -/
theorem interaction_grouping_spec (inters : List Interaction) :
    ((groupInteractions inters).map Prod.fst).Sublist riskOrder
    ∧ (∀ e ∈ groupInteractions inters,
        e.2.2 ≠ [] ∧ e.2.1 = e.2.2.length ∧ e.2.2.Sublist inters
        ∧ e.2.2 = inters.filter (fun i => lowerStr i.risk_level = lowerStr e.1))
    ∧ (∀ i ∈ inters, ∀ level ∈ riskOrder,
        lowerStr i.risk_level = lowerStr level →
        ∃ e ∈ groupInteractions inters, e.1 = level ∧ i ∈ e.2.2) := by
  refine ⟨?_, ?_, ?_⟩
  · refine map_fst_filterMap_sublist _ ?_ riskOrder
    intro level p hp
    simp only at hp
    split at hp
    · exact absurd hp (by simp)
    · cases Option.some_inj.mp hp
      rfl
  · intro e he
    rcases List.mem_filterMap.mp he with ⟨level, _, hf⟩
    simp only at hf
    split at hf
    · exact absurd hf (by simp)
    · rename_i hgroup
      cases hf.symm
      exact ⟨hgroup, rfl, List.filter_sublist inters, rfl⟩
  · intro i hi level hlevel hmatch
    have himem : i ∈ inters.filter (fun j => lowerStr j.risk_level = lowerStr level) := by
      rw [List.mem_filter]
      exact ⟨hi, by simp [hmatch]⟩
    have hne : inters.filter (fun j => lowerStr j.risk_level = lowerStr level) ≠ [] :=
      List.ne_nil_of_mem himem
    refine ⟨(level, (inters.filter
        (fun j => lowerStr j.risk_level = lowerStr level)).length,
        inters.filter (fun j => lowerStr j.risk_level = lowerStr level)), ?_, rfl, himem⟩
    unfold groupInteractions
    rw [List.mem_filterMap]
    exact ⟨level, hlevel, by simp only; rw [if_neg hne]⟩

/-- C8 witness: the spec's mixed-case example — risk levels `"high"`,
`"Moderate"`, `"LOW"` are all grouped and rendered. -/
theorem interaction_grouping_spec_witness :
    ∃ e ∈ groupInteractions
      [⟨("A").toList, ("B").toList, ("high").toList, [], [], []⟩,
       ⟨("C").toList, ("D").toList, ("Moderate").toList, [], [], []⟩,
       ⟨("E").toList, ("F").toList, ("LOW").toList, [], [], []⟩],
      e.1 = ("Low").toList
      ∧ (⟨("E").toList, ("F").toList, ("LOW").toList, [], [], []⟩ : Interaction) ∈ e.2.2 :=
  (interaction_grouping_spec
      [⟨("A").toList, ("B").toList, ("high").toList, [], [], []⟩,
       ⟨("C").toList, ("D").toList, ("Moderate").toList, [], [], []⟩,
       ⟨("E").toList, ("F").toList, ("LOW").toList, [], [], []⟩]).2.2
    ⟨("E").toList, ("F").toList, ("LOW").toList, [], [], []⟩ (by decide)
    (("Low").toList) (by decide) (by decide)

/-! ## Claim C5 -/

theorem getD_setKey_self (k : Str) (v : ℚ) (m : List (Str × ℚ)) (d : ℚ) :
    getD (setKey k v m) k d = v := by
  induction m with
  | nil => simp [setKey, getD]
  | cons kv rest ih =>
    simp only [setKey]
    split
    · simp [getD]
    · rename_i hne
      simp only [getD]
      rw [if_neg hne]
      exact ih

theorem getD_setKey_ne {k k' : Str} (hk : k ≠ k') (v : ℚ) (m : List (Str × ℚ)) (d : ℚ) :
    getD (setKey k v m) k' d = getD m k' d := by
  induction m with
  | nil => simp [setKey, getD, hk]
  | cons kv rest ih =>
    simp only [setKey]
    split
    · rename_i heq
      simp only [getD]
      rw [if_neg (heq ▸ hk), if_neg (heq ▸ hk)]
    · simp only [getD, ih]

theorem kwScore_nonneg {text : Str} {kws : List Str} {b : ℚ}
    (h : kwScore text kws = some b) : 0 ≤ b := by
  induction kws with
  | nil => cases h
  | cons kw rest ih =>
    rw [kwScore] at h
    split at h
    · have hb := Option.some_inj.mp h
      have hmin : 0 ≤ min (7 / 20) (1 / 20 * (countSub kw text : ℚ)) :=
        le_min (by norm_num) (by positivity)
      rw [← hb]
      linarith
    · exact ih h

theorem kwScore_first {text : Str} {b : ℚ} :
    ∀ {kws : List Str}, kwScore text kws = some b →
      ∃ pre kw suf, kws = pre ++ kw :: suf ∧ (∀ k ∈ pre, hasSub k text = false)
        ∧ hasSub kw text = true
        ∧ b = 1 / 4 + min (7 / 20) (1 / 20 * (countSub kw text : ℚ)) := by
  intro kws
  induction kws with
  | nil => intro h; cases h
  | cons kw rest ih =>
    intro h
    rw [kwScore] at h
    split at h
    · rename_i hh
      exact ⟨[], kw, rest, rfl, by simp, hh, (Option.some_inj.mp h).symm⟩
    · rename_i hh
      rcases ih h with ⟨pre, kw', suf, heq, hpre, hkw, hb⟩
      refine ⟨kw :: pre, kw', suf, by rw [heq, List.cons_append], ?_, hkw, hb⟩
      intro k hk
      rcases List.mem_cons.mp hk with rfl | hk2
      · exact Bool.not_eq_true _ ▸ eq_false_of_ne_true hh
      · exact hpre k hk2

/-- One step of the `heuristic_inject` keyword loop over the table. -/
def addedStep (text : Str) (acc : List (Str × ℚ)) (e : Str × List Str) :
    List (Str × ℚ) :=
  match kwScore text e.2 with
  | some base => setKey e.1 (max (getD acc e.1 0) base) acc
  | none => acc

theorem buildAdded_eq_foldl (text : Str) :
    buildAdded text = COMMON_HEURISTIC_MAP.foldl (addedStep text) [] := rfl

theorem getD_foldl_addedStep_not_mem (text : Str) {d : Str} :
    ∀ (entries : List (Str × List Str)) (acc : List (Str × ℚ)),
      d ∉ entries.map Prod.fst →
      getD (entries.foldl (addedStep text) acc) d 0 = getD acc d 0 := by
  intro entries
  induction entries with
  | nil => intro acc _; rfl
  | cons e rest ih =>
    intro acc hd
    rw [List.map_cons] at hd
    have hd1 : e.1 ≠ d := fun h => hd (h ▸ List.mem_cons_self _ _)
    have hd2 : d ∉ rest.map Prod.fst := fun h => hd (List.mem_cons_of_mem _ h)
    rw [List.foldl_cons, ih _ hd2]
    unfold addedStep
    cases hsc : kwScore text e.2 with
    | none => rfl
    | some base => exact getD_setKey_ne hd1 _ _ _

theorem getD_buildAdded_go (text : Str) :
    ∀ (entries : List (Str × List Str)) (acc : List (Str × ℚ)),
      (entries.map Prod.fst).Nodup →
      ∀ d kws b, (d, kws) ∈ entries → kwScore text kws = some b →
        getD acc d 0 = 0 →
        getD (entries.foldl (addedStep text) acc) d 0 = b := by
  intro entries
  induction entries with
  | nil => intro acc _ d kws b hmem; cases hmem
  | cons e rest ih =>
    intro acc hnodup d kws b hmem hscore hacc
    rw [List.map_cons, List.nodup_cons] at hnodup
    rcases List.mem_cons.mp hmem with heq | hmem2
    · cases heq
      have hd_not : d ∉ rest.map Prod.fst := hnodup.1
      rw [List.foldl_cons, getD_foldl_addedStep_not_mem text rest _ hd_not]
      unfold addedStep
      simp only
      rw [hscore, hacc, getD_setKey_self]
      exact max_eq_right (kwScore_nonneg hscore)
    · have he1 : e.1 ≠ d := by
        intro h
        exact hnodup.1 (h ▸ List.mem_map_of_mem Prod.fst hmem2)
      rw [List.foldl_cons]
      refine ih _ hnodup.2 d kws b hmem2 hscore ?_
      unfold addedStep
      cases hsc : kwScore text e.2 with
      | none => exact hacc
      | some base => rw [getD_setKey_ne he1, hacc]

/-- C5 (amended): in the keyword fallback, a condition of the table whose
keyword list matches the lower-cased text receives the score
`0.25 + min(0.35, 0.05 * count)` computed from the FIRST keyword of its
list that occurs in the text — the loop `break`s there, so later matching
keywords (even with higher counts) are ignored. -/
theorem added_score_first_keyword (text d : Str) (kws : List Str) (b : ℚ)
    (hmem : (d, kws) ∈ COMMON_HEURISTIC_MAP)
    (hscore : kwScore text kws = some b) :
    getD (buildAdded text) d 0 = b
    ∧ ∃ pre kw suf, kws = pre ++ kw :: suf ∧ (∀ k ∈ pre, hasSub k text = false)
        ∧ hasSub kw text = true
        ∧ b = 1 / 4 + min (7 / 20) (1 / 20 * (countSub kw text : ℚ)) := by
  constructor
  · rw [buildAdded_eq_foldl]
    refine getD_buildAdded_go text COMMON_HEURISTIC_MAP [] ?_ d kws b hmem hscore rfl
    decide
  · exact kwScore_first hscore

/-- The claim's wording, for comparison (modelled from the spec sentence
"compute a heuristic score ... keep the max score per condition across its
matched keywords"): the maximum of the per-keyword scores over ALL matched
keywords. -/
def maxKwScoreClaim (text : Str) (kws : List Str) : Option ℚ :=
  match (kws.filter (fun kw => hasSub kw text)).map
    (fun kw => 1 / 4 + min (7 / 20) (1 / 20 * (countSub kw text : ℚ))) with
  | [] => none
  | s :: rest => some (rest.foldl max s)

/-- C5 counterexample: for the text "acne acne acne irregular period" the
pcos row matches both "irregular period" (count 1, score 0.30) and "acne"
(count 3, score 0.40); the claim's max-over-matched-keywords value is 0.40,
but the code breaks at the first matching keyword and stores 0.30. -/
theorem added_score_not_max_cex :
    getD (buildAdded (("acne acne acne irregular period").toList)) (("pcos").toList) 0
      = 3 / 10
    ∧ maxKwScoreClaim (("acne acne acne irregular period").toList)
        [("irregular period").toList, ("irregular periods").toList, ("acne").toList,
         ("hirsutism").toList, ("excess hair").toList, ("weight gain").toList]
      = some (2 / 5)
    ∧ (3 / 10 : ℚ) ≠ 2 / 5 := by
  refine ⟨?_, ?_, by norm_num⟩
  · simp +decide [buildAdded, COMMON_HEURISTIC_MAP, kwScore, countSub, setKey, getD]
    norm_num [max_def, min_def]
  · simp +decide [maxKwScoreClaim, countSub]
    norm_num [max_def, min_def]

/-- C5 witness: the amended theorem applied to the counterexample text and
the pcos table row; the stored score is the first matching keyword's. -/
theorem added_score_first_keyword_witness :
    getD (buildAdded (("acne acne acne irregular period").toList)) (("pcos").toList) 0
      = 1 / 4 + min (7 / 20)
        (1 / 20 * (countSub (("irregular period").toList)
          (("acne acne acne irregular period").toList) : ℚ)) :=
  (added_score_first_keyword (("acne acne acne irregular period").toList)
    (("pcos").toList)
    [("irregular period").toList, ("irregular periods").toList, ("acne").toList,
     ("hirsutism").toList, ("excess hair").toList, ("weight gain").toList]
    _ (by decide) (by simp +decide [kwScore, countSub])).1

/-! ## Claim C1 -/

theorem setKey_ne_nil (k : Str) (v : ℚ) (m : List (Str × ℚ)) : setKey k v m ≠ [] := by
  cases m with
  | nil => simp [setKey]
  | cons kv rest =>
    simp only [setKey]
    split <;> simp

theorem foldl_setKey_ne_nil {β : Type} (f : List (Str × ℚ) → β → Str)
    (g : List (Str × ℚ) → β → ℚ) :
    ∀ (l : List β) (m : List (Str × ℚ)), (m ≠ [] ∨ l ≠ []) →
      l.foldl (fun acc b => setKey (f acc b) (g acc b) acc) m ≠ [] := by
  intro l
  induction l with
  | nil =>
    intro m h
    rcases h with h | h
    · exact h
    · exact absurd rfl h
  | cons b t ih =>
    intro m _
    rw [List.foldl_cons]
    exact ih _ (Or.inl (setKey_ne_nil _ _ _))

theorem mergedOf_ne_nil {text : Str} {preds : List Pred}
    (h : preds ≠ [] ∨ addedFinal text ≠ []) : mergedOf text preds ≠ [] := by
  unfold mergedOf
  rcases h with h | h
  · exact foldl_setKey_ne_nil (fun _ (np : Str × ℚ) => lowerStr np.1)
      (fun m (np : Str × ℚ) => max (getD m (lowerStr np.1) 0) np.2) _ _
      (Or.inl (foldl_setKey_ne_nil (fun _ (p : Pred) => predKey p)
        (fun _ (p : Pred) => canonProb p) preds [] (Or.inr h)))
  · exact foldl_setKey_ne_nil (fun _ (np : Str × ℚ) => lowerStr np.1)
      (fun m (np : Str × ℚ) => max (getD m (lowerStr np.1) 0) np.2) _ _ (Or.inr h)

theorem itemsOf_eq_map {text : Str} {preds : List Pred}
    (h : mergedOf text preds ≠ []) :
    itemsOf text preds = (mergedOf text preds).map (fun np =>
      { disease := titleStr np.1
        probability := np.2
        description := []
        consult := []
        precautions := []
        links := [] }) := by
  unfold itemsOf
  rw [if_neg]
  intro hc
  exact h (List.map_eq_nil.mp hc.1)

theorem itemsOf_ne_nil {text : Str} {preds : List Pred}
    (h : preds ≠ [] ∨ addedFinal text ≠ []) : itemsOf text preds ≠ [] := by
  rw [itemsOf_eq_map (mergedOf_ne_nil h)]
  intro hc
  exact mergedOf_ne_nil h (List.map_eq_nil.mp hc)

theorem normedItems_ne_nil {text : Str} {preds : List Pred}
    (h : preds ≠ [] ∨ addedFinal text ≠ []) : normedItems text preds ≠ [] := by
  unfold normedItems
  split
  · intro hc
    exact itemsOf_ne_nil h (List.map_eq_nil.mp hc)
  · exact itemsOf_ne_nil h

theorem lowResult_length_le (text : Str) (preds : List Pred) :
    (lowResult text preds).length ≤ 3 := by
  unfold lowResult
  rw [List.length_map, List.length_take]
  exact min_le_left _ _

theorem lowResult_ne_nil {text : Str} {preds : List Pred}
    (h : preds ≠ [] ∨ addedFinal text ≠ []) : lowResult text preds ≠ [] := by
  unfold lowResult
  intro hc
  rw [List.map_eq_nil, List.take_eq_nil_iff] at hc
  rcases hc with hc | hc
  · exact absurd hc (by norm_num)
  · have hlen := (sortDescBy_perm Pred.probability (normedItems text preds)).length_eq
    rw [hc] at hlen
    exact normedItems_ne_nil h (List.length_eq_zero.mp hlen.symm)

theorem sumProbs_map_rebuild (l : List Pred) :
    sumProbs (l.map (fun it =>
      ({ disease := it.disease
         probability := it.probability
         description := it.description
         consult := it.consult
         precautions := it.precautions
         links := it.links } : Pred))) = sumProbs l := by
  unfold sumProbs
  rw [List.map_map]
  rfl

theorem lowResult_sum {text : Str} {preds : List Pred}
    (hm : (mergedOf text preds).length ≤ 3)
    (hpos : 0 < sumProbs (itemsOf text preds)) :
    |sumProbs (lowResult text preds) - 1| ≤ 3 / 2000 := by
  have hItems_ne : itemsOf text preds ≠ [] := by
    intro hc
    rw [hc] at hpos
    norm_num [sumProbs] at hpos
  have hlen_items : (itemsOf text preds).length ≤ 3 := by
    by_cases hmerged : mergedOf text preds = []
    · exfalso
      unfold itemsOf at hItems_ne
      rw [hmerged] at hItems_ne
      simp only [List.map_nil] at hItems_ne
      split at hItems_ne
      · rename_i hcond
        unfold itemsOf at hpos
        rw [hmerged] at hpos
        simp only [List.map_nil] at hpos
        rw [if_pos hcond] at hpos
        exact absurd (mergedOf_ne_nil (Or.inl hcond.2)) (by rw [hmerged]; simp)
      · exact hItems_ne rfl
    · rw [itemsOf_eq_map hmerged, List.length_map]
      exact hm
  have hT : sumProbs (itemsOf text preds) ≠ 0 := ne_of_gt hpos
  have hnormed : normedItems text preds = (itemsOf text preds).map (fun i =>
      { i with probability := round3 (i.probability / sumProbs (itemsOf text preds)) }) := by
    unfold normedItems
    rw [if_pos hpos]
  have hsum_normed : sumProbs (normedItems text preds)
      = (((itemsOf text preds).map
          (fun i => i.probability / sumProbs (itemsOf text preds))).map round3).sum := by
    rw [hnormed]
    unfold sumProbs
    rw [List.map_map, List.map_map]
    rfl
  have htrue_sum : ((itemsOf text preds).map
      (fun i => i.probability / sumProbs (itemsOf text preds))).sum = 1 := by
    have := sum_map_div (itemsOf text preds) Pred.probability (sumProbs (itemsOf text preds))
    rw [this]
    exact div_self hT
  have habs := abs_sum_round3 ((itemsOf text preds).map
    (fun i => i.probability / sumProbs (itemsOf text preds)))
  rw [htrue_sum] at habs
  have hlen2 : (((itemsOf text preds).map
      (fun i => i.probability / sumProbs (itemsOf text preds))).length : ℚ) ≤ 3 := by
    rw [List.length_map]
    exact_mod_cast hlen_items
  have hbound : |sumProbs (normedItems text preds) - 1| ≤ 3 / 2000 := by
    rw [hsum_normed]
    calc |(((itemsOf text preds).map
          (fun i => i.probability / sumProbs (itemsOf text preds))).map round3).sum - 1|
        ≤ _ * (1 / 2000) := habs
      _ ≤ 3 * (1 / 2000) := by
          apply mul_le_mul_of_nonneg_right hlen2
          norm_num
      _ = 3 / 2000 := by norm_num
  have hlen_normed : (normedItems text preds).length ≤ 3 := by
    rw [hnormed, List.length_map]
    exact hlen_items
  have hsorted_len : (sortDescBy Pred.probability (normedItems text preds)).length ≤ 3 := by
    rw [(sortDescBy_perm Pred.probability (normedItems text preds)).length_eq]
    exact hlen_normed
  have htake : (sortDescBy Pred.probability (normedItems text preds)).take 3
      = sortDescBy Pred.probability (normedItems text preds) :=
    List.take_of_length_le hsorted_len
  have hsum_sorted : sumProbs (sortDescBy Pred.probability (normedItems text preds))
      = sumProbs (normedItems text preds) := by
    unfold sumProbs
    exact ((sortDescBy_perm Pred.probability (normedItems text preds)).map
      Pred.probability).sum_eq
  unfold lowResult
  rw [htake, sumProbs_map_rebuild, hsum_sorted]
  exact hbound

/-- C1 (amended): for every predictor response in which every candidate's
canonical probability is at most 0.29, the heuristic fallback returns a
list of at most 3 entries; the list is non-empty whenever the model
candidate list is non-empty or at least one keyword or category fallback
matches the lower-cased text; and when additionally the merged candidate
dict has at most 3 entries and the items' probabilities have a positive
sum, the returned probabilities sum to 1 up to rounding (within 3/2000).
(The result can be empty when there are no candidates and no keyword
matches, and the returned top-3 sum falls short of 1 when more than 3
merged candidates were normalised.) -/
theorem heuristic_inject_low_confidence (text : Str) (preds : List Pred)
    (hlow : ∀ p ∈ preds, canonProb p ≤ 29 / 100) :
    heuristic_inject text preds (3 / 10) = lowResult (lowerStr text) preds
    ∧ (heuristic_inject text preds (3 / 10)).length ≤ 3
    ∧ ((preds ≠ [] ∨ addedFinal (lowerStr text) ≠ []) →
        heuristic_inject text preds (3 / 10) ≠ [])
    ∧ (((mergedOf (lowerStr text) preds).length ≤ 3
        ∧ 0 < sumProbs (itemsOf (lowerStr text) preds)) →
        |sumProbs (heuristic_inject text preds (3 / 10)) - 1| ≤ 3 / 2000) := by
  have htop : ¬(topProb preds ≥ 3 / 10) := by
    intro hge
    have := topProb_le (by norm_num : (0 : ℚ) ≤ 29 / 100) hlow
    linarith
  have heq : heuristic_inject text preds (3 / 10) = lowResult (lowerStr text) preds := by
    unfold heuristic_inject
    rw [if_neg htop]
  refine ⟨heq, ?_, ?_, ?_⟩
  · rw [heq]
    exact lowResult_length_le _ _
  · intro h
    rw [heq]
    exact lowResult_ne_nil h
  · intro h
    rw [heq]
    exact lowResult_sum h.1 h.2

/-- C1 counterexample: the claim as stated is false on two counts.  With an
empty candidate list and empty text (all canonical probabilities are
vacuously at most 0.29) the fallback returns the EMPTY list; and for a text
matching four table conditions ("runny nose", "diarrhea", "migraine",
"painful urination", each scoring 0.30) the normalisation runs over four
candidates before truncation, so the returned three entries have
probabilities summing to 0.75, not 1 (far beyond the rounding tolerance). -/
theorem heuristic_inject_low_confidence_cex :
    heuristic_inject [] [] (3 / 10) = []
    ∧ sumProbs (heuristic_inject
        (("runny nose diarrhea migraine painful urination").toList) [] (3 / 10)) = 3 / 4
    ∧ (heuristic_inject
        (("runny nose diarrhea migraine painful urination").toList) [] (3 / 10)).length
      = 3 := by
  have htext : lowerStr (("runny nose diarrhea migraine painful urination").toList)
      = ("runny nose diarrhea migraine painful urination").toList := by decide
  have hstage : heuristic_inject
      (("runny nose diarrhea migraine painful urination").toList) [] (3 / 10)
      = lowResult (("runny nose diarrhea migraine painful urination").toList) [] := by
    rw [heuristic_inject, if_neg (by norm_num [topProb]), htext]
  refine ⟨?_, ?_, ?_⟩
  · simp +decide [heuristic_inject, topProb, lowResult, normedItems, itemsOf, mergedOf,
      addedFinal, buildAdded, categoryFallback, COMMON_HEURISTIC_MAP, kwScore, sumProbs,
      sortDescBy, lowerStr, addedStep]
  · rw [hstage]
    simp +decide [lowResult, normedItems, itemsOf, mergedOf,
      addedFinal, buildAdded, categoryFallback, COMMON_HEURISTIC_MAP, kwScore, countSub,
      sumProbs, addedStep, setKey, getD]
    norm_num [round_eq, max_def, min_def, sortDescBy, insertDescBy, round3,
      List.foldr, List.take]
  · rw [hstage]
    simp +decide [lowResult, normedItems, itemsOf, mergedOf,
      addedFinal, buildAdded, categoryFallback, COMMON_HEURISTIC_MAP, kwScore, countSub,
      sumProbs, addedStep, setKey, getD]
    norm_num [round_eq, max_def, min_def, sortDescBy, insertDescBy, round3,
      List.foldr, List.take]

/-- C1 witness: the amended theorem applied to the text "i have a headache"
with no model candidates — the category fallback adds migraine, the merged
dict has one entry with positive score, and the result is a non-empty list
of at most three entries summing to 1 up to rounding. -/
theorem heuristic_inject_low_confidence_witness :
    heuristic_inject (("i have a headache").toList) [] (3 / 10) ≠ []
    ∧ (heuristic_inject (("i have a headache").toList) [] (3 / 10)).length ≤ 3
    ∧ |sumProbs (heuristic_inject (("i have a headache").toList) [] (3 / 10)) - 1|
        ≤ 3 / 2000 := by
  have h := heuristic_inject_low_confidence (("i have a headache").toList) [] (by simp)
  refine ⟨h.2.2.1 (Or.inr (by decide)), h.2.1, h.2.2.2 ⟨by decide, ?_⟩⟩
  have ht : lowerStr (("i have a headache").toList) = ("i have a headache").toList := by
    decide
  rw [ht]
  simp +decide [itemsOf, mergedOf, addedFinal, buildAdded, categoryFallback,
    COMMON_HEURISTIC_MAP, kwScore, countSub, addedStep, setKey, getD, sumProbs]

/-! ## Claim C4 -/

/-- C4 (amended): when the strict parse of the sliced, comma-cleaned span
fails, only the predictor pipeline's `parse_gemini_json` attempts the
second parse with single quotes replaced by double quotes (returning its
result); the extractor pipeline's `parse_gemini_json` returns `None` with
no second attempt. -/
theorem quote_retry_predictor_only (raw js : Str)
    (hx : extractJsonStr raw = some js) (hfail : jsonLoads js = none) :
    SymptomPredictor.parse_gemini_json raw
      = jsonLoads (js.map (fun c => if c = '\'' then '"' else c))
    ∧ PrescriptionApp.parse_gemini_json raw = none := by
  constructor
  · rw [SymptomPredictor.parse_gemini_json, hx]
    simp only
    rw [hfail]
  · rw [PrescriptionApp.parse_gemini_json, hx]
    simp only
    exact hfail

/-- C4 counterexample: the claim as stated is false for the extractor
pipeline.  On the single-quoted input `{'a': 'b'}` the quote-replacing
second parse yields the object `{"a": "b"}`, which the predictor's
`parse_gemini_json` returns; but src/app.py's `parse_gemini_json` has no
such second pass and returns `None`, so "both pipelines implement this
algorithm step" fails. -/
theorem quote_retry_cex :
    SymptomPredictor.parse_gemini_json (("\x7b'a': 'b'\x7d").toList)
      = some (JVal.jobj [(("a").toList, JVal.jstr (("b").toList))])
    ∧ PrescriptionApp.parse_gemini_json (("\x7b'a': 'b'\x7d").toList) = none := by
  have hx : extractJsonStr (("\x7b'a': 'b'\x7d").toList)
      = some (("\x7b'a': 'b'\x7d").toList) := by
    simp +decide [extractJsonStr, strip, lstrip, rstrip, replaceAll, sliceBraces,
      cleanCommas]
  constructor
  · rw [SymptomPredictor.parse_gemini_json, hx]
    rfl
  · rw [PrescriptionApp.parse_gemini_json, hx]
    rfl

/-- C4 witness: the amended theorem applied to the single-quoted input. -/
theorem quote_retry_predictor_only_witness :
    SymptomPredictor.parse_gemini_json (("\x7b'a': 'b'\x7d").toList)
      = jsonLoads ((("\x7b'a': 'b'\x7d").toList).map
          (fun c => if c = '\'' then '"' else c))
    ∧ PrescriptionApp.parse_gemini_json (("\x7b'a': 'b'\x7d").toList) = none :=
  quote_retry_predictor_only (("\x7b'a': 'b'\x7d").toList) (("\x7b'a': 'b'\x7d").toList)
    (by simp +decide [extractJsonStr, strip, lstrip, rstrip, replaceAll, sliceBraces,
      cleanCommas])
    (by rfl)

/-! ## Claim C6 -/

theorem replaceAll_nil (pat rep : Str) : replaceAll pat rep [] = [] := by
  rw [replaceAll]

theorem replaceAll_append_of_ne (pat rep : Str) (hpat : pat.head? = some '\x60') :
    ∀ (x y : Str), (∀ c ∈ x, c ≠ '\x60') →
      replaceAll pat rep (x ++ y) = x ++ replaceAll pat rep y := by
  obtain ⟨p0, ps, rfl⟩ : ∃ p0 ps, pat = p0 :: ps := by
    cases pat with
    | nil => cases hpat
    | cons p0 ps => exact ⟨p0, ps, rfl⟩
  have hp0 : p0 = '\x60' := by
    simpa using hpat
  intro x
  induction x with
  | nil => intro y _; simp
  | cons c t ih =>
    intro y hx
    have hc : c ≠ '\x60' := hx c (List.mem_cons_self c t)
    rw [List.cons_append, replaceAll, if_neg]
    · rw [ih y (fun a ha => hx a (List.mem_cons_of_mem c ha))]
      rfl
    · intro hcond
      have hpre := hcond.1
      rw [List.isPrefixOf] at hpre
      have : p0 = c := by
        have hb := Bool.and_eq_true_iff.mp hpre
        exact eq_of_beq hb.1
      exact hc (by rw [← this, hp0])

theorem replaceAll_eq_self_of_ne (pat rep : Str) (hpat : pat.head? = some '\x60')
    (x : Str) (hx : ∀ c ∈ x, c ≠ '\x60') : replaceAll pat rep x = x := by
  have h := replaceAll_append_of_ne pat rep hpat x [] hx
  rw [List.append_nil] at h
  rw [h, replaceAll_nil, List.append_nil]

theorem replaceAll_self (pat rep : Str) (hne : pat ≠ []) (y : Str) :
    replaceAll pat rep (pat ++ y) = rep ++ replaceAll pat rep y := by
  obtain ⟨p0, ps, rfl⟩ : ∃ p0 ps, pat = p0 :: ps := by
    cases pat with
    | nil => exact absurd rfl hne
    | cons p0 ps => exact ⟨p0, ps, rfl⟩
  rw [List.cons_append, replaceAll, if_pos]
  · have hdrop : List.drop ((p0 :: ps).length - 1) (ps ++ y) = y := by
      simp only [List.length_cons, Nat.add_sub_cancel]
      exact List.drop_left ps y
    rw [hdrop]
  · constructor
    · have : (p0 :: ps) <+: (p0 :: ps) ++ y := ⟨y, rfl⟩
      rw [List.cons_append] at this
      exact List.isPrefixOf_iff_prefix.mpr this
    · simp

theorem backtick_isPrefixOf_false {post : Str} (hb : ∀ c ∈ post, c ≠ '\x60')
    (q : Str) : ('\x60' :: q).isPrefixOf post = false := by
  cases post with
  | nil => rfl
  | cons c t =>
    rw [List.isPrefixOf]
    have hc : c ≠ '\x60' := hb c (List.mem_cons_self c t)
    have : ('\x60' == c) = false := beq_eq_false_iff_ne.mpr (fun h => hc h.symm)
    rw [this]
    rfl

theorem replaceAll_fj_on_f3 (rep post : Str) (hb : ∀ c ∈ post, c ≠ '\x60')
    (hj : (("json").toList).isPrefixOf post = false) :
    replaceAll (("```json").toList) rep (("```").toList ++ post)
      = ("```").toList ++ post := by
  show replaceAll (("```json").toList) rep ('\x60' :: '\x60' :: '\x60' :: post)
    = '\x60' :: '\x60' :: '\x60' :: post
  have h1 : (("```json").toList).isPrefixOf ('\x60' :: '\x60' :: '\x60' :: post)
      = false := by
    show (['\x60', '\x60', '\x60', 'j', 's', 'o', 'n'] : Str).isPrefixOf _ = false
    simp only [List.isPrefixOf, beq_self_eq_true, Bool.true_and]
    exact hj
  have h2 : (("```json").toList).isPrefixOf ('\x60' :: '\x60' :: post) = false := by
    show (['\x60', '\x60', '\x60', 'j', 's', 'o', 'n'] : Str).isPrefixOf _ = false
    simp only [List.isPrefixOf, beq_self_eq_true, Bool.true_and]
    exact backtick_isPrefixOf_false hb _
  have h3 : (("```json").toList).isPrefixOf ('\x60' :: post) = false := by
    show (['\x60', '\x60', '\x60', 'j', 's', 'o', 'n'] : Str).isPrefixOf _ = false
    simp only [List.isPrefixOf, beq_self_eq_true, Bool.true_and]
    exact backtick_isPrefixOf_false hb _
  rw [replaceAll, if_neg (by rw [h1]; simp)]
  rw [replaceAll, if_neg (by rw [h2]; simp)]
  rw [replaceAll, if_neg (by rw [h3]; simp)]
  rw [replaceAll_eq_self_of_ne (("```json").toList) rep rfl post hb]

theorem dropWhile_append_cons (p : Char → Bool) (c : Char) (hc : p c = false) :
    ∀ (x y : Str), List.dropWhile p (x ++ c :: y) = List.dropWhile p x ++ c :: y := by
  intro x
  induction x with
  | nil =>
    intro y
    simp [List.dropWhile_cons, hc]
  | cons a t ih =>
    intro y
    rw [List.cons_append, List.dropWhile_cons, List.dropWhile_cons]
    split
    · exact ih y
    · rfl

theorem lstrip_append_cons (x : Str) (c : Char) (y : Str) (hc : isPyWS c = false) :
    lstrip (x ++ c :: y) = lstrip x ++ c :: y :=
  dropWhile_append_cons isPyWS c hc x y

theorem rstrip_append_cons (x : Str) (c : Char) (y : Str) (hc : isPyWS c = false) :
    rstrip (x ++ c :: y) = x ++ c :: rstrip y := by
  unfold rstrip
  have h1 : (x ++ c :: y).reverse = y.reverse ++ c :: x.reverse := by
    simp
  rw [h1, lstrip_append_cons _ c _ hc]
  simp

theorem strip_decomp (A mid B : Str) (c0 c1 : Char)
    (h0 : isPyWS c0 = false) (h1 : isPyWS c1 = false) :
    strip (A ++ c0 :: (mid ++ c1 :: B))
      = lstrip A ++ c0 :: (mid ++ c1 :: rstrip B) := by
  unfold strip
  rw [lstrip_append_cons A c0 _ h0]
  rw [show lstrip A ++ c0 :: (mid ++ c1 :: B) = (lstrip A ++ c0 :: mid) ++ c1 :: B by
    simp]
  rw [rstrip_append_cons _ c1 _ h1]
  simp

theorem dropWhile_eq_nil_of_forall (p : Char → Bool) (x : Str)
    (hx : ∀ c ∈ x, p c = true) : List.dropWhile p x = [] := by
  induction x with
  | nil => rfl
  | cons a t ih =>
    rw [List.dropWhile_cons, if_pos (hx a (List.mem_cons_self a t))]
    exact ih (fun c hc => hx c (List.mem_cons_of_mem a hc))

theorem sliceBraces_decomp (A mid B : Str) (hA : '\x7b' ∉ A) (hB : '\x7d' ∉ B) :
    sliceBraces (A ++ '\x7b' :: (mid ++ '\x7d' :: B))
      = some ('\x7b' :: (mid ++ ['\x7d'])) := by
  unfold sliceBraces
  rw [if_pos]
  · have hdrop1 : List.dropWhile (fun c => c ≠ '\x7b')
        (A ++ '\x7b' :: (mid ++ '\x7d' :: B))
        = '\x7b' :: (mid ++ '\x7d' :: B) := by
      rw [dropWhile_append_cons _ '\x7b' (by simp) A _]
      rw [dropWhile_eq_nil_of_forall _ A
        (fun c hc => by simp; exact fun h => hA (h ▸ hc))]
      rfl
    rw [hdrop1]
    rw [show ('\x7b' :: (mid ++ '\x7d' :: B)).reverse
        = B.reverse ++ '\x7d' :: (mid.reverse ++ ['\x7b']) by simp]
    rw [dropWhile_append_cons _ '\x7d' (by simp) B.reverse _]
    rw [dropWhile_eq_nil_of_forall _ B.reverse
      (fun c hc => by
        simp
        intro h
        exact hB (h ▸ (List.mem_reverse.mp hc)))]
    simp
  · constructor
    · simp
    · simp

theorem rstrip_isPrefix (l : Str) : rstrip l <+: l := by
  unfold rstrip
  rw [show l = l.reverse.reverse by simp]
  rw [List.reverse_prefix]
  rw [List.reverse_reverse]
  exact List.dropWhile_suffix isPyWS

/-- The shared recovery pipeline on a fenced JSON object surrounded by
prose: for any prose `pre`/`post` free of braces and backticks (and `post`
not beginning with "json", which would glue to the removed fence marker),
any brace-free, backtick-free fence padding `w1`/`w2`, and any backtick-free
object interior `mid`, the pipeline returns exactly the comma-cleaned span
between the first `{` and the last `}`. -/
theorem extract_fenced (pre w1 mid w2 post : Str)
    (hpre_b : ∀ c ∈ pre, c ≠ '\x60') (hpre_ob : '\x7b' ∉ pre)
    (hw1_b : ∀ c ∈ w1, c ≠ '\x60') (hw1_ob : '\x7b' ∉ w1)
    (hmid_b : ∀ c ∈ mid, c ≠ '\x60')
    (hw2_b : ∀ c ∈ w2, c ≠ '\x60') (hw2_cb : '\x7d' ∉ w2)
    (hpost_b : ∀ c ∈ post, c ≠ '\x60') (hpost_cb : '\x7d' ∉ post)
    (hpost_j : (("json").toList).isPrefixOf post = false) :
    extractJsonStr (pre ++ ("```json").toList ++ w1
        ++ ('\x7b' :: (mid ++ ['\x7d'])) ++ w2 ++ ("```").toList ++ post)
      = some (cleanCommas ('\x7b' :: (mid ++ ['\x7d']))) := by
  have hfj : ("```json").toList = '\x60' :: ("``json").toList := by decide
  have hf3 : ("```").toList = ("``").toList ++ ['\x60'] := by decide
  set P' : Str := rstrip post with hP'
  have hP'mem : ∀ c ∈ P', c ∈ post := fun c hc => mem_of_mem_rstrip hc
  have hP'_b : ∀ c ∈ P', c ≠ '\x60' := fun c hc => hpost_b c (hP'mem c hc)
  have hP'_cb : '\x7d' ∉ P' := fun hc => hpost_cb (hP'mem _ hc)
  have hP'_j : (("json").toList).isPrefixOf P' = false := by
    by_contra hcon
    have htrue : (("json").toList).isPrefixOf P' = true := by
      cases h : (("json").toList).isPrefixOf P'
      · exact absurd h hcon
      · rfl
    have hpref : ("json").toList <+: P' := List.isPrefixOf_iff_prefix.mp htrue
    have : ("json").toList <+: post := hpref.trans (rstrip_isPrefix post)
    rw [List.isPrefixOf_iff_prefix.mpr this] at hpost_j
    cases hpost_j
  have hraw_ne : pre ++ ("```json").toList ++ w1
      ++ ('\x7b' :: (mid ++ ['\x7d'])) ++ w2 ++ ("```").toList ++ post ≠ [] := by
    intro h0
    have hlen := congrArg List.length h0
    simp only [List.length_append, List.length_cons, List.length_nil] at hlen
    omega
  unfold extractJsonStr
  rw [if_neg hraw_ne]
  have hstage1 : strip (pre ++ ("```json").toList ++ w1
      ++ ('\x7b' :: (mid ++ ['\x7d'])) ++ w2 ++ ("```").toList ++ post)
      = lstrip pre ++ '\x60' :: ((("``json").toList ++ w1
        ++ ('\x7b' :: (mid ++ ['\x7d'])) ++ w2 ++ ("``").toList) ++ '\x60' :: P') := by
    rw [show pre ++ ("```json").toList ++ w1
        ++ ('\x7b' :: (mid ++ ['\x7d'])) ++ w2 ++ ("```").toList ++ post
        = pre ++ '\x60' :: ((("``json").toList ++ w1
          ++ ('\x7b' :: (mid ++ ['\x7d'])) ++ w2 ++ ("``").toList) ++ '\x60' :: post) by
      simp [hfj, hf3]]
    exact strip_decomp pre _ post '\x60' '\x60' (by decide) (by decide)
  rw [hstage1]
  have hlpre_b : ∀ c ∈ lstrip pre, c ≠ '\x60' := fun c hc => hpre_b c (mem_of_mem_lstrip hc)
  have hbody_b : ∀ c ∈ '\x7b' :: (mid ++ ['\x7d']), c ≠ '\x60' := by
    intro c hc
    rcases List.mem_cons.mp hc with rfl | hc2
    · decide
    · rcases List.mem_append.mp hc2 with hc3 | hc3
      · exact hmid_b c hc3
      · rw [List.mem_singleton.mp hc3]
        decide
  have hstage2 : replaceAll (("```json").toList) []
      (lstrip pre ++ '\x60' :: ((("``json").toList ++ w1
        ++ ('\x7b' :: (mid ++ ['\x7d'])) ++ w2 ++ ("``").toList) ++ '\x60' :: P'))
      = lstrip pre ++ (w1 ++ (('\x7b' :: (mid ++ ['\x7d'])) ++ (w2
        ++ (("```").toList ++ P')))) := by
    rw [show ('\x60' : Char) :: ((("``json").toList ++ w1
        ++ ('\x7b' :: (mid ++ ['\x7d'])) ++ w2 ++ ("``").toList) ++ '\x60' :: P')
        = ("```json").toList ++ (w1 ++ (('\x7b' :: (mid ++ ['\x7d'])) ++ (w2
          ++ (("```").toList ++ P')))) by simp [hfj, hf3]]
    rw [replaceAll_append_of_ne _ _ (by decide) (lstrip pre) _ hlpre_b]
    rw [replaceAll_self _ _ (by decide) _]
    rw [replaceAll_append_of_ne _ _ (by decide) w1 _ hw1_b]
    rw [replaceAll_append_of_ne _ _ (by decide) ('\x7b' :: (mid ++ ['\x7d'])) _ hbody_b]
    rw [replaceAll_append_of_ne _ _ (by decide) w2 _ hw2_b]
    rw [replaceAll_fj_on_f3 [] P' hP'_b hP'_j]
    rfl
  rw [hstage2]
  have hstage3 : replaceAll (("```").toList) []
      (lstrip pre ++ (w1 ++ (('\x7b' :: (mid ++ ['\x7d'])) ++ (w2
        ++ (("```").toList ++ P')))))
      = lstrip pre ++ (w1 ++ (('\x7b' :: (mid ++ ['\x7d'])) ++ (w2 ++ P'))) := by
    rw [replaceAll_append_of_ne _ _ (by decide) (lstrip pre) _ hlpre_b]
    rw [replaceAll_append_of_ne _ _ (by decide) w1 _ hw1_b]
    rw [replaceAll_append_of_ne _ _ (by decide) ('\x7b' :: (mid ++ ['\x7d'])) _ hbody_b]
    rw [replaceAll_append_of_ne _ _ (by decide) w2 _ hw2_b]
    rw [replaceAll_self _ _ (by decide) _]
    rw [replaceAll_eq_self_of_ne _ _ (by decide) P' hP'_b]
    rfl
  rw [hstage3]
  have hstage4 : strip (lstrip pre ++ (w1 ++ (('\x7b' :: (mid ++ ['\x7d'])) ++ (w2
      ++ P'))))
      = lstrip (lstrip pre ++ w1) ++ '\x7b' :: (mid ++ '\x7d' :: rstrip (w2 ++ P')) := by
    rw [show lstrip pre ++ (w1 ++ (('\x7b' :: (mid ++ ['\x7d'])) ++ (w2 ++ P')))
        = (lstrip pre ++ w1) ++ '\x7b' :: (mid ++ '\x7d' :: (w2 ++ P')) by simp]
    exact strip_decomp _ _ _ '\x7b' '\x7d' (by decide) (by decide)
  rw [hstage4]
  have hA_ob : '\x7b' ∉ lstrip (lstrip pre ++ w1) := by
    intro hc
    rcases List.mem_append.mp (mem_of_mem_lstrip hc) with hc2 | hc2
    · exact hpre_ob (mem_of_mem_lstrip hc2)
    · exact hw1_ob hc2
  have hB_cb : '\x7d' ∉ rstrip (w2 ++ P') := by
    intro hc
    rcases List.mem_append.mp (mem_of_mem_rstrip hc) with hc2 | hc2
    · exact hw2_cb hc2
    · exact hP'_cb hc2
  show Option.map cleanCommas (sliceBraces (lstrip (lstrip pre ++ w1)
    ++ '\x7b' :: (mid ++ '\x7d' :: rstrip (w2 ++ P'))))
    = some (cleanCommas ('\x7b' :: (mid ++ ['\x7d'])))
  rw [sliceBraces_decomp _ mid _ hA_ob hB_cb]
  rfl

/-- C6: for every raw text consisting of a JSON object (with or without
trailing commas) wrapped in code fences and surrounded by prose — prose and
padding free of braces and backticks, the prose after the closing fence not
beginning with "json" — both pipelines' `parse_gemini_json` return exactly
the object parsed from the unfenced, comma-cleaned span between the first
`{` and the last `}`, discarding all surrounding commentary. -/
theorem json_recovery_fenced (pre w1 mid w2 post : Str) (v : JVal)
    (hpre_b : ∀ c ∈ pre, c ≠ '\x60') (hpre_ob : '\x7b' ∉ pre)
    (hw1_b : ∀ c ∈ w1, c ≠ '\x60') (hw1_ob : '\x7b' ∉ w1)
    (hmid_b : ∀ c ∈ mid, c ≠ '\x60')
    (hw2_b : ∀ c ∈ w2, c ≠ '\x60') (hw2_cb : '\x7d' ∉ w2)
    (hpost_b : ∀ c ∈ post, c ≠ '\x60') (hpost_cb : '\x7d' ∉ post)
    (hpost_j : (("json").toList).isPrefixOf post = false)
    (hparse : jsonLoads (cleanCommas ('\x7b' :: (mid ++ ['\x7d']))) = some v) :
    SymptomPredictor.parse_gemini_json (pre ++ ("```json").toList ++ w1
        ++ ('\x7b' :: (mid ++ ['\x7d'])) ++ w2 ++ ("```").toList ++ post) = some v
    ∧ PrescriptionApp.parse_gemini_json (pre ++ ("```json").toList ++ w1
        ++ ('\x7b' :: (mid ++ ['\x7d'])) ++ w2 ++ ("```").toList ++ post) = some v := by
  have hx := extract_fenced pre w1 mid w2 post hpre_b hpre_ob hw1_b hw1_ob hmid_b
    hw2_b hw2_cb hpost_b hpost_cb hpost_j
  constructor
  · rw [SymptomPredictor.parse_gemini_json, hx]
    simp only
    rw [hparse]
  · rw [PrescriptionApp.parse_gemini_json, hx]
    simp only
    exact hparse

/-- C6 witness: the spec's concrete example — prose, a fenced JSON object
with a trailing comma, prose — recovered identically by both pipelines. -/
theorem json_recovery_fenced_witness :
    SymptomPredictor.parse_gemini_json ((("Sure! Here is the result: ").toList)
        ++ ("```json").toList ++ ("\n").toList
        ++ ('\x7b' :: ((("\"medicines\": [], \"interactions\": [], \"note\": \"x\",").toList)
            ++ ['\x7d']))
        ++ ("\n").toList ++ ("```").toList ++ ((" Hope this helps!").toList))
      = some (JVal.jobj [(("medicines").toList, JVal.jarr []),
          (("interactions").toList, JVal.jarr []),
          (("note").toList, JVal.jstr (("x").toList))])
    ∧ PrescriptionApp.parse_gemini_json ((("Sure! Here is the result: ").toList)
        ++ ("```json").toList ++ ("\n").toList
        ++ ('\x7b' :: ((("\"medicines\": [], \"interactions\": [], \"note\": \"x\",").toList)
            ++ ['\x7d']))
        ++ ("\n").toList ++ ("```").toList ++ ((" Hope this helps!").toList))
      = some (JVal.jobj [(("medicines").toList, JVal.jarr []),
          (("interactions").toList, JVal.jarr []),
          (("note").toList, JVal.jstr (("x").toList))]) :=
  json_recovery_fenced (("Sure! Here is the result: ").toList) (("\n").toList)
    (("\"medicines\": [], \"interactions\": [], \"note\": \"x\",").toList)
    (("\n").toList) ((" Hope this helps!").toList)
    (JVal.jobj [(("medicines").toList, JVal.jarr []),
      (("interactions").toList, JVal.jarr []),
      (("note").toList, JVal.jstr (("x").toList))])
    (by decide) (by decide) (by decide) (by decide) (by decide)
    (by decide) (by decide) (by decide) (by decide) (by decide)
    (by rfl)

end PrescriptionReader
